import Mathlib

/-!
Verification development for `deployments/scripts/update-scanner-images.py`.

The script keeps the scanner image tags in `internal/enums/images/images.go`
in sync with the latest stable semantic-version tag on Docker Hub.  Strings
are modelled as `List Char` (the script only handles ASCII data); Python's
`\d` and `\s` character classes are modelled at their ASCII extent.  The
network is abstracted as an oracle mapping a repository name to either a
retrieval error or the list of tag names its pages contain.
-/

/-- Strings of the embedded program, as explicit character lists. -/
abbrev Str := List Char

/-- Python's `\s` class at its ASCII extent (space, tab, LF, CR, VT, FF). -/
def pySpace (c : Char) : Bool :=
  c = ' ' || c = '\t' || c = '\n' || c = '\r' || c = '\x0b' || c = '\x0c'

/-- The `[A-Za-z_]` class of `CONST_LINE_RE`. -/
def isIdentStart (c : Char) : Bool :=
  ('A' ≤ c && c ≤ 'Z') || ('a' ≤ c && c ≤ 'z') || c = '_'

/-- The `[A-Za-z0-9_]` class of `CONST_LINE_RE`. -/
def isIdentChar (c : Char) : Bool :=
  isIdentStart c || ('0' ≤ c && c ≤ '9')

/-- Consume one expected literal character. -/
def expectChar (c : Char) (s : Str) : Option Str :=
  match s with
  | c' :: rest => if c' = c then some rest else none
  | [] => none

/-- Consume one character of the `[A-Za-z_]` class. -/
def expectIdentStart (s : Str) : Option (Char × Str) :=
  match s with
  | c :: cs => if isIdentStart c then some (c, cs) else none
  | [] => none

/-- `CONST_LINE_RE.match(line)`: the anchored match of
`^(\s*)([A-Za-z_][A-Za-z0-9_]*)\s*=\s*"([^"]+)"` returning the `const` and
`value` groups.  All subpatterns munch greedily; since the relevant character
classes are pairwise disjoint at every joint, the deterministic maximal-munch
scan below is exactly the regex semantics. -/
def matchLine (l : Str) : Option (Str × Str) :=
  (expectIdentStart (l.dropWhile pySpace)).bind (fun p =>
  (expectChar '=' ((p.2.dropWhile isIdentChar).dropWhile pySpace)).bind (fun r4 =>
  (expectChar '"' (r4.dropWhile pySpace)).bind (fun r6 =>
    if r6.takeWhile (fun d => d ≠ '"') = [] then none
    else
      (expectChar '"' (r6.dropWhile (fun d => d ≠ '"'))).bind (fun _ =>
        some (p.1 :: p.2.takeWhile isIdentChar, r6.takeWhile (fun d => d ≠ '"'))))))

/-- Python dict assignment `constants[const_name] = (index, value)`:
overwrite the binding if the key is present, otherwise append it. -/
def dictInsert (m : List (Str × Nat × Str)) (k : Str) (val : Nat × Str) :
    List (Str × Nat × Str) :=
  match m with
  | [] => [(k, val)]
  | (k', v') :: rest => if k' = k then (k, val) :: rest else (k', v') :: dictInsert rest k val

/-- Python dict lookup `constants[k]` / membership test. -/
def lookupC (m : List (Str × Nat × Str)) (k : Str) : Option (Nat × Str) :=
  match m with
  | [] => none
  | (k', v') :: rest => if k' = k then some v' else lookupC rest k

/-- The scanning loop of `parse_image_constants`, carrying the enumeration
index and the dict built so far. -/
def parseLoop (n : Nat) (L : List Str) (m : List (Str × Nat × Str)) :
    List (Str × Nat × Str) :=
  match L with
  | [] => m
  | l :: rest =>
    parseLoop (n + 1) rest
      (match matchLine l with
       | none => m
       | some (c, v) => dictInsert m c (n, v))

/-- `parse_image_constants(lines)`. -/
def parse_image_constants (L : List Str) : List (Str × Nat × Str) :=
  parseLoop 0 L []

/-- All `(line index, value)` matches of `CONST_LINE_RE` whose `const` group
equals `c`, scanning lines in order with indices starting at `n`. -/
def selMatchesFrom (n : Nat) (L : List Str) (c : Str) : List (Nat × Str) :=
  match L with
  | [] => []
  | l :: rest =>
    (match matchLine l with
     | some (c', v) => if c' = c then [(n, v)] else []
     | none => []) ++ selMatchesFrom (n + 1) rest c

/-- `int(...)` on a digit group: decimal value of a digit string. -/
def digitsVal (d : Str) : Nat :=
  d.foldl (fun n c => 10 * n + (c.toNat - 48)) 0

/-- Consume a maximal non-empty run of decimal digits (`\d+`). -/
def takeNum (s : Str) : Option (Str × Str) :=
  let d := s.takeWhile Char.isDigit
  if d = [] then none else some (d, s.dropWhile Char.isDigit)

/-- `parse_semver(tag)`, i.e. `re.match(r"^v(\d+)\.(\d+)\.(\d+)$", tag)`,
scanned left to right (each `\d+` is maximal munch, which is exact here
since the following separator is never a digit).  Python's `$` (without
`re.MULTILINE`) matches at the end of the string or just before one final
newline, so a single trailing `'\n'` is tolerated. -/
def parse_semver (t : Str) : Option (Nat × Nat × Nat) :=
  (expectChar 'v' t).bind (fun r1 =>
  (takeNum r1).bind (fun p1 =>
  (expectChar '.' p1.2).bind (fun r2 =>
  (takeNum r2).bind (fun p2 =>
  (expectChar '.' p2.2).bind (fun r3 =>
  (takeNum r3).bind (fun p3 =>
    if p3.2 = [] ∨ p3.2 = ['\n'] then
      some (digitsVal p1.1, digitsVal p2.1, digitsVal p3.1)
    else none))))))

/-- The decimal digit character for `n < 10` (else `'9'`, unreached). -/
def digitChar (n : Nat) : Char :=
  if n = 0 then '0' else if n = 1 then '1' else if n = 2 then '2'
  else if n = 3 then '3' else if n = 4 then '4' else if n = 5 then '5'
  else if n = 6 then '6' else if n = 7 then '7' else if n = 8 then '8' else '9'

/-- Fuel-driven decimal rendering of a natural number (Python `str(n)`). -/
def natDigitsGo : Nat → Nat → Str
  | 0, _ => []
  | fuel + 1, n =>
    if n < 10 then [digitChar n] else natDigitsGo fuel (n / 10) ++ [digitChar (n % 10)]

/-- Decimal rendering of `n` (enough fuel for any `n`). -/
def natDigits (n : Nat) : Str := natDigitsGo (n + 1) n

/-- `f"v{latest[0]}.{latest[1]}.{latest[2]}"`. -/
def formatSemver (t : Nat × Nat × Nat) : Str :=
  'v' :: natDigits t.1 ++ '.' :: natDigits t.2.1 ++ '.' :: natDigits t.2.2

/-- Python `<` on `(major, minor, patch)` tuples: lexicographic. -/
def tripLt (a b : Nat × Nat × Nat) : Prop :=
  a.1 < b.1 ∨ (a.1 = b.1 ∧ (a.2.1 < b.2.1 ∨ (a.2.1 = b.2.1 ∧ a.2.2 < b.2.2)))

instance tripLt.instDec (a b : Nat × Nat × Nat) : Decidable (tripLt a b) := by
  unfold tripLt; infer_instance

/-- Non-strict tuple order. -/
def tripLe (a b : Nat × Nat × Nat) : Prop := tripLt a b ∨ a = b

/-- One step of Python's `max`: replace the current maximum on `current < x`. -/
def maxTrip (cur x : Nat × Nat × Nat) : Nat × Nat × Nat :=
  if tripLt cur x then x else cur

/-- `max(versions)` on a non-empty list, head split off. -/
def listMax (v : Nat × Nat × Nat) (vs : List (Nat × Nat × Nat)) : Nat × Nat × Nat :=
  vs.foldl maxTrip v

/-- The exception kinds main catches: `KeyError`, `ValueError`,
`HTTPError`/`URLError` (collapsed into one retrieval constructor), and
`IndexError`-style list indexing faults. -/
inductive Err where
  | keyError : Str → Err
  | valueError : Str → Err
  | retrievalError : Str → Err
  | indexError : Nat → Err
deriving DecidableEq

/-- The frozen `ImageUpdate` dataclass. -/
structure ImageUpdate where
  const_name : Str
  repository : Str
  from_tag : Str
  to_tag : Str
deriving DecidableEq

/-- `value.rsplit(":", 1)[1]`: the suffix after the last colon. -/
def afterLastColon (v : Str) : Str :=
  (v.reverse.takeWhile (fun c => c ≠ ':')).reverse

/-- `value.rsplit(":", 1)[0]`: everything before the last colon. -/
def beforeLastColon (v : Str) : Str :=
  ((v.reverse.dropWhile (fun c => c ≠ ':')).drop 1).reverse

/-- `extract_image_tag(value)`. -/
def extract_image_tag (v : Str) : Except Err Str :=
  if ':' ∈ v then Except.ok (afterLastColon v) else Except.error (Err.valueError v)

/-- `replace_image_tag(value, new_tag)`. -/
def replace_image_tag (v tag : Str) : Except Err Str :=
  if ':' ∈ v then Except.ok (beforeLastColon v ++ ':' :: tag)
  else Except.error (Err.valueError v)

/-- `fetch_latest_semver_tag(repository, timeout)`, with the network
abstracted as `tagsOf`: filter the repository's tags through `parse_semver`,
fail when none qualifies, else format the tuple-maximum back. -/
def fetch_latest_semver_tag (tagsOf : Str → Except Err (List Str)) (repo : Str) :
    Except Err Str :=
  match tagsOf repo with
  | Except.error e => Except.error e
  | Except.ok tags =>
    match tags.filterMap parse_semver with
    | [] => Except.error (Err.valueError repo)
    | v :: vs => Except.ok (formatSemver (listMax v vs))

/-- Python `<` on strings: lexicographic by code point. -/
def lexLt : Str → Str → Bool
  | _, [] => false
  | [], _ :: _ => true
  | a :: as, b :: bs => if a < b then true else if a = b then lexLt as bs else false

/-- Python `<=` on strings. -/
def lexLe (a b : Str) : Bool := !(lexLt b a)

/-- Stable insertion step: place `a` after every element whose key is `≤`
its own, as a stable sort does. -/
def insAfter (a : ImageUpdate) : List ImageUpdate → List ImageUpdate
  | [] => [a]
  | b :: l =>
    if lexLe b.const_name a.const_name then b :: insAfter a l else a :: b :: l

/-- `sorted(updates, key=lambda item: item.const_name)`: the stable sort by
identifier, realised as left-to-right stable insertion. -/
def sortByName (l : List ImageUpdate) : List ImageUpdate :=
  l.foldl (fun acc a => insAfter a acc) []

/-- Python dict subscripting raising the given error when the key is
absent. -/
def req {a : Type} (e : Err) : Option a → Except Err a
  | none => Except.error e
  | some x => Except.ok x

/-- Whether an exceptional computation succeeded. -/
def excOk {a : Type} : Except Err a → Bool
  | Except.ok _ => true
  | Except.error _ => false

/-- The value of an exceptional computation, with a default for failure. -/
def excValD {a : Type} (d : a) : Except Err a → a
  | Except.ok x => x
  | Except.error _ => d

/-- One iteration body of the `for const_name, repository` loop of
`compute_updates` for the entry `p = (const name, repository)`: raise
`KeyError` if the constant is absent, extract the current tag (may raise),
fetch the latest stable tag (may raise), re-validate it (raising
`ValueError` when it is not stable semver), and return the update record —
`some` when the tags differ, `none` when the entry is already current. -/
def planStep (tagsOf : Str → Except Err (List Str))
    (constants : List (Str × Nat × Str)) (p : Str × Str) :
    Except Err (Option ImageUpdate) :=
  (req (Err.keyError p.1) (lookupC constants p.1)).bind (fun iv =>
  (extract_image_tag iv.2).bind (fun cur =>
  (fetch_latest_semver_tag tagsOf p.2).bind (fun latest =>
    if (parse_semver latest).isSome then
      Except.ok (if cur ≠ latest then some (ImageUpdate.mk p.1 p.2 cur latest) else none)
    else Except.error (Err.valueError latest))))

/-- Whether one tracked identifier's planning step runs without raising. -/
def stepCheck (tagsOf : Str → Except Err (List Str))
    (constants : List (Str × Nat × Str)) (p : Str × Str) : Bool :=
  excOk (planStep tagsOf constants p)

/-- The update record one mapping entry contributes (`none` when its step
fails or the tags already agree). -/
def recOf (tagsOf : Str → Except Err (List Str))
    (constants : List (Str × Nat × Str)) (p : Str × Str) : Option ImageUpdate :=
  excValD none (planStep tagsOf constants p)

/-- The `for const_name, repository in ...items()` loop of
`compute_updates`, before the final sort: the first raising step aborts the
whole loop, a successful step contributes its optional record in order. -/
def planLoop (tagsOf : Str → Except Err (List Str))
    (constants : List (Str × Nat × Str)) :
    List (Str × Str) → Except Err (List ImageUpdate)
  | [] => Except.ok []
  | p :: rest =>
    match planStep tagsOf constants p, planLoop tagsOf constants rest with
    | Except.error e, _ => Except.error e
    | Except.ok _, Except.error e => Except.error e
    | Except.ok r, Except.ok us => Except.ok (r.elim us (fun u => u :: us))

/-- `TARGET_CONST_TO_REPOSITORY`, in source (insertion) order. -/
def TARGET_CONST_TO_REPOSITORY : List (Str × Str) :=
  [("C".data, "horusec-c".data), ("Csharp".data, "horusec-csharp".data),
   ("Elixir".data, "horusec-elixir".data), ("Generic".data, "horusec-generic".data),
   ("Go".data, "horusec-go".data), ("HCL".data, "horusec-hcl".data),
   ("Javascript".data, "horusec-js".data), ("Leaks".data, "horusec-leaks".data),
   ("PHP".data, "horusec-php".data), ("Python".data, "horusec-python".data),
   ("Ruby".data, "horusec-ruby".data), ("Shell".data, "horusec-shell".data)]

/-- `compute_updates` generalised over the tracked mapping. -/
def compute_updates_over (tagsOf : Str → Except Err (List Str))
    (mapping : List (Str × Str)) (constants : List (Str × Nat × Str)) :
    Except Err (List ImageUpdate) :=
  match planLoop tagsOf constants mapping with
  | Except.error e => Except.error e
  | Except.ok us => Except.ok (sortByName us)

/-- `compute_updates(constants, timeout)` over the fixed tracked mapping. -/
def compute_updates (tagsOf : Str → Except Err (List Str))
    (constants : List (Str × Nat × Str)) : Except Err (List ImageUpdate) :=
  compute_updates_over tagsOf TARGET_CONST_TO_REPOSITORY constants

/-- `str.replace(old, new, 1)`: replace the first occurrence of `old` (for
empty `old`, insertion at the front, as in Python). -/
def replaceFirst (old new : Str) : Str → Str
  | [] => if old = [] then new else []
  | c :: s =>
    if (c :: s).take old.length = old then new ++ (c :: s).drop old.length
    else c :: replaceFirst old new s

/-- `old` occurs in `s` starting at position `k`. -/
def occursAt (old s : Str) (k : Nat) : Prop :=
  (s.drop k).take old.length = old

/-- One iteration body of the `for update in updates` loop of
`apply_updates`: look the constant up (`KeyError` if absent), rebuild the
value with the new tag (may raise `ValueError`), and splice the line in
place (Python list indexing faults on an out-of-range index). -/
def applyOne (constants : List (Str × Nat × Str)) (ls : List Str)
    (u : ImageUpdate) : Except Err (List Str) :=
  (req (Err.keyError u.const_name) (lookupC constants u.const_name)).bind (fun iv =>
  (replace_image_tag iv.2 u.to_tag).bind (fun w =>
    if iv.1 < ls.length then
      Except.ok (ls.set iv.1 (replaceFirst iv.2 w (ls.getD iv.1 [])))
    else Except.error (Err.indexError iv.1)))

/-- The `for update in updates` loop of `apply_updates`. -/
def applyLoop (constants : List (Str × Nat × Str)) :
    List Str → List ImageUpdate → Except Err (List Str)
  | ls, [] => Except.ok ls
  | ls, u :: rest =>
    match applyOne constants ls u with
    | Except.error e => Except.error e
    | Except.ok ls2 => applyLoop constants ls2 rest

/-- `apply_updates(lines, constants, updates)`. -/
def apply_updates (ls : List Str) (constants : List (Str × Nat × Str))
    (updates : List ImageUpdate) : Except Err (List Str) :=
  applyLoop constants ls updates

/-- One page of the Docker Hub tag listing: the optional `name` field of
each entry of `results` (`none` for a missing or non-string name) and the
`next` continuation field. -/
structure Page where
  results : List (Option Str)
  next : Option Str
deriving DecidableEq

/-- Truthiness of the `next` field under `while next_url`. -/
def nextTruthy : Option Str → Bool
  | none => false
  | some u => !u.isEmpty

/-- The tag names a page contributes (`isinstance(name, str)` filter). -/
def pageNames (p : Page) : List Str :=
  p.results.filterMap id

/-- The `while next_url` loop of `fetch_tags`, driven by the registry's
successive responses: each request either fails (the exception propagates)
or yields a page whose names are accumulated, continuing while `next` is
truthy. -/
def fetch_tags_responses : List (Except Err Page) → Except Err (List Str)
  | [] => Except.ok []
  | Except.error e :: _ => Except.error e
  | Except.ok p :: rest =>
    if nextTruthy p.next then
      match fetch_tags_responses rest with
      | Except.error e => Except.error e
      | Except.ok ts => Except.ok (pageNames p ++ ts)
    else Except.ok (pageNames p)

/-- How many HTTP requests the loop issues against the given response
sequence. -/
def fetch_tags_requestCount : List (Except Err Page) → Nat
  | [] => 0
  | Except.error _ :: _ => 1
  | Except.ok p :: rest =>
    if nextTruthy p.next then 1 + fetch_tags_requestCount rest else 1

/-- A finite registry page chain: non-empty, every page but the last
carries a truthy `next` reference, the last does not. -/
def chainOk : List Page → Prop
  | [] => False
  | [p] => nextTruthy p.next = false
  | p :: rest => nextTruthy p.next = true ∧ chainOk rest

/-- Concatenation of per-page name lists. -/
def listJoin : List (List Str) → List Str
  | [] => []
  | l :: ls => l ++ listJoin ls

/-- Outcome of one run of `main` on a given source-file content: the file's
content afterwards, whether the script rewrote it, and the update list. -/
structure RunResult where
  fileContent : List Str
  wroteFile : Bool
  updates : List ImageUpdate
deriving DecidableEq

/-- The parse → plan → patch pipeline of `main`, with the guard
`if updates:` in front of the file write. -/
def runOnce (tagsOf : Str → Except Err (List Str)) (content : List Str) :
    Except Err RunResult :=
  match compute_updates tagsOf (parse_image_constants content) with
  | Except.error e => Except.error e
  | Except.ok us =>
    match apply_updates content (parse_image_constants content) us with
    | Except.error e => Except.error e
    | Except.ok out =>
      Except.ok (RunResult.mk (if us.isEmpty then content else out) (!us.isEmpty) us)

/-- Observable outcome of `main`: exit code, final source-file content, and
whether the report file was written. -/
structure MainOutcome where
  exitCode : Nat
  finalContent : List Str
  reportWritten : Bool
deriving DecidableEq

/-- `main()` on a given file content: on any caught exception print and
exit 1 with both files untouched; on success the source file holds the
pipeline result and the report is written. -/
def mainModel (tagsOf : Str → Except Err (List Str)) (content : List Str) :
    MainOutcome :=
  match runOnce tagsOf content with
  | Except.error _ => MainOutcome.mk 1 content false
  | Except.ok r => MainOutcome.mk 0 r.fileContent true

/-- The sort key order: Python `<=` on the identifier strings. -/
def updLe (a b : ImageUpdate) : Prop := lexLe a.const_name b.const_name = true

/-- Exactly the stable-semver pattern of the specification: `v` followed by
three non-empty decimal-digit groups separated by dots, nothing else. -/
def stableSemverExact (t : Str) : Prop :=
  ∃ d1 d2 d3 : Str,
    t = 'v' :: d1 ++ '.' :: d2 ++ '.' :: d3 ∧
    d1 ≠ [] ∧ d2 ≠ [] ∧ d3 ≠ [] ∧
    (∀ c ∈ d1, c.isDigit) ∧ (∀ c ∈ d2, c.isDigit) ∧ (∀ c ∈ d3, c.isDigit)

/-! ## Generic list helpers -/

theorem dropWhile_append_all {α} {p : α → Bool} {a b : List α}
    (h : ∀ c ∈ a, p c = true) : (a ++ b).dropWhile p = b.dropWhile p := by
  induction a with
  | nil => rfl
  | cons c cs ih =>
    simp only [List.cons_append, List.dropWhile_cons, h c (List.mem_cons_self c cs)]
    exact ih (fun x hx => h x (List.mem_cons_of_mem c hx))

theorem takeWhile_append_all {α} {p : α → Bool} {a b : List α}
    (h : ∀ c ∈ a, p c = true) : (a ++ b).takeWhile p = a ++ b.takeWhile p := by
  induction a with
  | nil => rfl
  | cons c cs ih =>
    simp only [List.cons_append, List.takeWhile_cons, h c (List.mem_cons_self c cs)]
    simp [ih (fun x hx => h x (List.mem_cons_of_mem c hx))]

theorem dropWhile_cons_false {α} {p : α → Bool} {c : α} {l : List α}
    (h : p c = false) : (c :: l).dropWhile p = c :: l := by
  simp [List.dropWhile_cons, h]

theorem takeWhile_cons_false {α} {p : α → Bool} {c : α} {l : List α}
    (h : p c = false) : (c :: l).takeWhile p = [] := by
  simp [List.takeWhile_cons, h]

theorem dropWhile_head_false {α} {p : α → Bool} :
    ∀ {l : List α} {c : α} {cs : List α}, l.dropWhile p = c :: cs → p c = false := by
  intro l
  induction l with
  | nil => intro c cs h; simp at h
  | cons x xs ih =>
    intro c cs h
    by_cases hx : p x
    · rw [List.dropWhile_cons, if_pos hx] at h; exact ih h
    · rw [dropWhile_cons_false (Bool.of_not_eq_true hx)] at h
      cases h; exact Bool.of_not_eq_true hx

theorem getD_set_ne {α} {l : List α} {i j : Nat} {x d : α} (h : i ≠ j) :
    (l.set i x).getD j d = l.getD j d := by
  simp [List.getD, List.getElem?_set_ne h]

theorem getD_set_self {α} {l : List α} {i : Nat} {x d : α} (h : i < l.length) :
    (l.set i x).getD i d = x := by
  simp [List.getD, List.getElem?_set_self, h]

theorem getLast?_append_some {α} {l1 l2 : List α} {e : α}
    (h : l2.getLast? = some e) : (l1 ++ l2).getLast? = some e := by
  have hne : l2 ≠ [] := by intro hc; subst hc; simp at h
  rw [List.getLast?_append_of_ne_nil _ hne]; exact h

theorem getLast?_append_none {α} {l1 l2 : List α}
    (h : l2.getLast? = none) : (l1 ++ l2).getLast? = l1.getLast? := by
  have : l2 = [] := by
    cases l2 with
    | nil => rfl
    | cons a as => simp [List.getLast?_cons] at h
  subst this; simp

/-! ## Character-class facts -/

theorem pySpace_cases {c : Char} (h : pySpace c = true) :
    c = ' ' ∨ c = '\t' ∨ c = '\n' ∨ c = '\r' ∨ c = '\x0b' ∨ c = '\x0c' := by
  simp only [pySpace, Bool.or_eq_true, decide_eq_true_eq] at h
  tauto

theorem identStart_not_space {c : Char} (h : isIdentStart c = true) : pySpace c = false := by
  by_contra hc
  rcases pySpace_cases (Bool.of_not_eq_false hc) with h' | h' | h' | h' | h' | h' <;>
    (subst h'; simp [isIdentStart] at h)

theorem identChar_not_space {c : Char} (h : isIdentChar c = true) : pySpace c = false := by
  by_contra hc
  rcases pySpace_cases (Bool.of_not_eq_false hc) with h' | h' | h' | h' | h' | h' <;>
    (subst h'; simp [isIdentChar, isIdentStart] at h)

theorem identStart_identChar {c : Char} (h : isIdentStart c = true) : isIdentChar c = true := by
  simp [isIdentChar, h]

theorem identChar_cases {c : Char} (h : isIdentChar c = true) :
    isIdentStart c = true ∨ c.isDigit = true := by
  simp only [isIdentChar, Bool.or_eq_true] at h
  rcases h with h | h
  · exact Or.inl h
  · right; simpa [Char.isDigit] using h

theorem identStart_ne_colon {c : Char} (h : isIdentStart c = true) : c ≠ ':' := by
  rintro rfl; simp [isIdentStart] at h

theorem identStart_ne_quote {c : Char} (h : isIdentStart c = true) : c ≠ '"' := by
  rintro rfl; simp [isIdentStart] at h

theorem identChar_ne_colon {c : Char} (h : isIdentChar c = true) : c ≠ ':' := by
  rintro rfl; simp [isIdentChar, isIdentStart] at h

theorem identChar_ne_quote {c : Char} (h : isIdentChar c = true) : c ≠ '"' := by
  rintro rfl; simp [isIdentChar, isIdentStart] at h

theorem space_ne_colon {c : Char} (h : pySpace c = true) : c ≠ ':' := by
  rintro rfl; simp [pySpace] at h

theorem space_ne_quote {c : Char} (h : pySpace c = true) : c ≠ '"' := by
  rintro rfl; simp [pySpace] at h

theorem digit_not_space {c : Char} (h : c.isDigit = true) : pySpace c = false := by
  by_contra hc
  rcases pySpace_cases (Bool.of_not_eq_false hc) with h' | h' | h' | h' | h' | h' <;>
    (subst h'; simp [Char.isDigit] at h)

theorem digit_ne_colon {c : Char} (h : c.isDigit = true) : c ≠ ':' := by
  rintro rfl; simp [Char.isDigit] at h

theorem digit_ne_quote {c : Char} (h : c.isDigit = true) : c ≠ '"' := by
  rintro rfl; simp [Char.isDigit] at h

theorem digit_ne_newline {c : Char} (h : c.isDigit = true) : c ≠ '\n' := by
  rintro rfl; simp [Char.isDigit] at h

theorem digitChar_isDigit (n : Nat) : (digitChar n).isDigit = true := by
  unfold digitChar
  repeat' split
  all_goals decide

theorem natDigitsGo_digits : ∀ fuel n, ∀ c ∈ natDigitsGo fuel n, c.isDigit = true := by
  intro fuel
  induction fuel with
  | zero => intro n c hc; simp [natDigitsGo] at hc
  | succ f ih =>
    intro n c hc
    rw [natDigitsGo] at hc
    split at hc
    · rcases List.mem_singleton.mp hc with rfl
      exact digitChar_isDigit n
    · rcases List.mem_append.mp hc with h | h
      · exact ih _ c h
      · rcases List.mem_singleton.mp h with rfl
        exact digitChar_isDigit (n % 10)

theorem natDigits_digits (n : Nat) : ∀ c ∈ natDigits n, c.isDigit = true :=
  natDigitsGo_digits (n + 1) n

theorem natDigitsGo_ne_nil : ∀ fuel n, 0 < fuel → natDigitsGo fuel n ≠ [] := by
  intro fuel n h
  cases fuel with
  | zero => omega
  | succ f =>
    rw [natDigitsGo]
    split
    · simp
    · simp

theorem natDigits_ne_nil (n : Nat) : natDigits n ≠ [] :=
  natDigitsGo_ne_nil (n + 1) n (by omega)

theorem formatSemver_chars (t : Nat × Nat × Nat) :
    ∀ c ∈ formatSemver t, c = 'v' ∨ c = '.' ∨ c.isDigit = true := by
  intro c hc
  unfold formatSemver at hc
  rcases List.mem_cons.mp hc with rfl | hc
  · exact Or.inl rfl
  rcases List.mem_append.mp hc with hc | hc
  · rcases List.mem_append.mp hc with h | hc
    · exact Or.inr (Or.inr (natDigits_digits _ _ h))
    · rcases List.mem_cons.mp hc with rfl | h
      · exact Or.inr (Or.inl rfl)
      · exact Or.inr (Or.inr (natDigits_digits _ _ h))
  · rcases List.mem_cons.mp hc with rfl | h
    · exact Or.inr (Or.inl rfl)
    · exact Or.inr (Or.inr (natDigits_digits _ _ h))

theorem formatSemver_no_colon (t : Nat × Nat × Nat) : ':' ∉ formatSemver t := by
  intro h
  rcases formatSemver_chars t ':' h with h' | h' | h' <;> simp [Char.isDigit] at h'

theorem formatSemver_no_quote (t : Nat × Nat × Nat) : '"' ∉ formatSemver t := by
  intro h
  rcases formatSemver_chars t '"' h with h' | h' | h' <;> simp [Char.isDigit] at h'

theorem formatSemver_ne_nil (t : Nat × Nat × Nat) : formatSemver t ≠ [] := by
  unfold formatSemver; simp
/-! ## Splitting at the last colon -/

theorem colon_split {v : Str} (h : ':' ∈ v) :
    v = beforeLastColon v ++ ':' :: afterLastColon v ∧ ':' ∉ afterLastColon v := by
  have hr : ':' ∈ v.reverse := List.mem_reverse.mpr h
  have hsplit := List.takeWhile_append_dropWhile (fun c => decide (c ≠ ':')) v.reverse
  have hnot : ∀ c ∈ v.reverse.takeWhile (fun c => decide (c ≠ ':')), c ≠ ':' := by
    intro c hc
    simpa using List.mem_takeWhile_imp hc
  have hd : v.reverse.dropWhile (fun c => decide (c ≠ ':')) ≠ [] := by
    intro hc
    rw [hc, List.append_nil] at hsplit
    refine hnot ':' ?_ rfl
    rw [hsplit]
    exact hr
  obtain ⟨c, d', hd'⟩ := List.exists_cons_of_ne_nil hd
  have hc0 := dropWhile_head_false (p := fun c => decide (c ≠ ':')) hd'
  have hc : c = ':' := by simpa using hc0
  subst hc
  have hb : beforeLastColon v = d'.reverse := by
    rw [beforeLastColon, hd']
    simp
  have ha : afterLastColon v =
      (v.reverse.takeWhile (fun c => decide (c ≠ ':'))).reverse := rfl
  constructor
  · conv_lhs => rw [← List.reverse_reverse v, ← hsplit]
    rw [hd', hb, ha]
    simp
  · intro hmem
    rw [ha] at hmem
    exact hnot ':' (List.mem_reverse.mp hmem) rfl

theorem afterLast_append {pre tag : Str} (h : ':' ∉ tag) :
    afterLastColon (pre ++ ':' :: tag) = tag := by
  have hrev : (pre ++ ':' :: tag).reverse = tag.reverse ++ ':' :: pre.reverse := by
    simp
  rw [afterLastColon, hrev]
  have hall : ∀ c ∈ tag.reverse, (fun c => decide (c ≠ ':')) c = true := by
    intro c hc
    simp only [decide_eq_true_eq]
    intro hcc
    subst hcc
    exact h (List.mem_reverse.mp hc)
  rw [takeWhile_append_all hall, takeWhile_cons_false (by simp)]
  simp

/-! ## The tuple order and `max` -/

theorem tripLt_trans {a b c : Nat × Nat × Nat} (h1 : tripLt a b) (h2 : tripLt b c) :
    tripLt a c := by
  obtain ⟨a1, a2, a3⟩ := a; obtain ⟨b1, b2, b3⟩ := b; obtain ⟨c1, c2, c3⟩ := c
  simp only [tripLt] at h1 h2 ⊢
  omega

theorem tripLt_connex {a b : Nat × Nat × Nat} (h : ¬ tripLt a b) : tripLe b a := by
  obtain ⟨a1, a2, a3⟩ := a; obtain ⟨b1, b2, b3⟩ := b
  simp only [tripLt, tripLe, tripLt, Prod.mk.injEq]
  simp only [tripLt] at h
  omega

theorem tripLe_trans {a b c : Nat × Nat × Nat} (h1 : tripLe a b) (h2 : tripLe b c) :
    tripLe a c := by
  rcases h1 with h1 | rfl
  · rcases h2 with h2 | rfl
    · exact Or.inl (tripLt_trans h1 h2)
    · exact Or.inl h1
  · exact h2

theorem tripLe_maxTrip_left (v x : Nat × Nat × Nat) : tripLe v (maxTrip v x) := by
  unfold maxTrip
  split
  · exact Or.inl (by assumption)
  · exact Or.inr rfl

theorem tripLe_maxTrip_right (v x : Nat × Nat × Nat) : tripLe x (maxTrip v x) := by
  unfold maxTrip
  split
  · exact Or.inr rfl
  · exact tripLt_connex (by assumption)

theorem maxTrip_cases (v x : Nat × Nat × Nat) : maxTrip v x = v ∨ maxTrip v x = x := by
  unfold maxTrip; split
  · exact Or.inr rfl
  · exact Or.inl rfl

theorem listMax_mem (v : Nat × Nat × Nat) (vs : List (Nat × Nat × Nat)) :
    listMax v vs ∈ v :: vs := by
  induction vs generalizing v with
  | nil => simp [listMax]
  | cons x xs ih =>
    have heq : listMax v (x :: xs) = listMax (maxTrip v x) xs := rfl
    rw [heq]
    have hmem := ih (maxTrip v x)
    rcases List.mem_cons.mp hmem with hh | hh
    · rw [hh]
      rcases maxTrip_cases v x with hc | hc <;> rw [hc] <;> simp
    · exact List.mem_cons_of_mem _ (List.mem_cons_of_mem _ hh)

theorem listMax_ge (v : Nat × Nat × Nat) (vs : List (Nat × Nat × Nat)) :
    ∀ w ∈ v :: vs, tripLe w (listMax v vs) := by
  induction vs generalizing v with
  | nil =>
    intro w hw
    rcases List.mem_cons.mp hw with rfl | hw
    · exact Or.inr rfl
    · simp at hw
  | cons x xs ih =>
    intro w hw
    have heq : listMax v (x :: xs) = listMax (maxTrip v x) xs := rfl
    rw [heq]
    have hhead := ih (maxTrip v x) (maxTrip v x) (List.mem_cons_self _ _)
    rcases List.mem_cons.mp hw with rfl | hw
    · exact tripLe_trans (tripLe_maxTrip_left w x) hhead
    rcases List.mem_cons.mp hw with rfl | hw
    · exact tripLe_trans (tripLe_maxTrip_right v w) hhead
    · exact ih (maxTrip v x) w (List.mem_cons_of_mem _ hw)

/-! ## C1: the Version Selector -/

theorem stableSemverExact_chars {t : Str} (h : stableSemverExact t) :
    ∀ c ∈ t, c = 'v' ∨ c = '.' ∨ c.isDigit = true := by
  obtain ⟨d1, d2, d3, rfl, -, -, -, h1, h2, h3⟩ := h
  intro c hc
  rcases List.mem_cons.mp hc with rfl | hc
  · exact Or.inl rfl
  rcases List.mem_append.mp hc with hc | hc
  · rcases List.mem_append.mp hc with hc | hc
    · exact Or.inr (Or.inr (h1 c hc))
    · rcases List.mem_cons.mp hc with rfl | hc
      · exact Or.inr (Or.inl rfl)
      · exact Or.inr (Or.inr (h2 c hc))
  · rcases List.mem_cons.mp hc with rfl | hc
    · exact Or.inr (Or.inl rfl)
    · exact Or.inr (Or.inr (h3 c hc))

theorem trailing_newline_not_exact {t : Str} (hn : '\n' ∈ t) :
    ¬ stableSemverExact t := by
  intro h
  have := stableSemverExact_chars h '\n' hn
  rcases this with h' | h' | h' <;> simp [Char.isDigit] at h'

/-- C1, counterexample: on the tag collection `["v1.0.0\n"]` no tag is a
stable semantic version (exact `v<digits>.<digits>.<digits>` shape), yet the
Version Selector does not fail: Python's `$` accepts the trailing newline
and the selector returns `v1.0.0`. -/
theorem fetch_latest_semver_tag_counterexample :
    (∀ t ∈ ["v1.0.0\n".data], ¬ stableSemverExact t) ∧
    fetch_latest_semver_tag (fun _ => Except.ok ["v1.0.0\n".data]) "horusec-go".data
      = Except.ok "v1.0.0".data := by
  constructor
  · intro t ht
    rcases List.mem_singleton.mp ht with rfl
    exact trailing_newline_not_exact (by decide)
  · rfl

/-- C1, amended: with qualification meaning acceptance by `parse_semver`
(the exact stable pattern, tolerating one trailing newline),
`fetch_latest_semver_tag` fails with the no-stable-tag error iff no fetched
tag qualifies, and otherwise returns the maximum qualifying triple under
`(major, minor, patch)` ordering, formatted back as
`v<major>.<minor>.<patch>`. -/
theorem fetch_latest_semver_tag_spec (tagsOf : Str → Except Err (List Str))
    (repo : Str) (tags : List Str) (h : tagsOf repo = Except.ok tags) :
    (fetch_latest_semver_tag tagsOf repo = Except.error (Err.valueError repo) ↔
      ∀ t ∈ tags, parse_semver t = none) ∧
    (∀ s, fetch_latest_semver_tag tagsOf repo = Except.ok s →
      ∃ m : Nat × Nat × Nat,
        (∃ t ∈ tags, parse_semver t = some m) ∧
        (∀ t ∈ tags, ∀ w, parse_semver t = some w → tripLe w m) ∧
        s = formatSemver m) := by
  have hfu : fetch_latest_semver_tag tagsOf repo =
      (match tags.filterMap parse_semver with
       | [] => Except.error (Err.valueError repo)
       | v :: vs => Except.ok (formatSemver (listMax v vs))) := by
    unfold fetch_latest_semver_tag
    rw [h]
  rcases hfm : tags.filterMap parse_semver with _ | ⟨v, vs⟩
  · rw [hfm] at hfu
    constructor
    · constructor
      · intro _
        exact List.filterMap_eq_nil_iff.mp hfm
      · intro _
        exact hfu
    · intro s hs
      rw [hfu] at hs
      cases hs
  · rw [hfm] at hfu
    constructor
    · constructor
      · intro he
        rw [hfu] at he
        cases he
      · intro hall
        have h0 : tags.filterMap parse_semver = [] := List.filterMap_eq_nil_iff.mpr hall
        rw [h0] at hfm
        cases hfm
    · intro s hs
      rw [hfu] at hs
      injection hs with hs'
      refine ⟨listMax v vs, ?_, ?_, hs'.symm⟩
      · have hmem := listMax_mem v vs
        rw [← hfm] at hmem
        rcases List.mem_filterMap.mp hmem with ⟨t, ht, hp⟩
        exact ⟨t, ht, hp⟩
      · intro t ht w hw
        have hwm : w ∈ tags.filterMap parse_semver := List.mem_filterMap.mpr ⟨t, ht, hw⟩
        rw [hfm] at hwm
        exact listMax_ge v vs w hwm

/-- C1, witness: a concrete registry where one repository has qualifying
tags and the selector picks the largest. -/
theorem fetch_latest_semver_tag_spec_witness :
    ((fun _ : Str => Except.ok (ε := Err) ["v1.2.0".data, "latest".data, "v1.10.0".data])
        "horusec-go".data = Except.ok ["v1.2.0".data, "latest".data, "v1.10.0".data]) ∧
    ((fetch_latest_semver_tag
        (fun _ => Except.ok ["v1.2.0".data, "latest".data, "v1.10.0".data])
        "horusec-go".data = Except.error (Err.valueError "horusec-go".data) ↔
      ∀ t ∈ ["v1.2.0".data, "latest".data, "v1.10.0".data], parse_semver t = none) ∧
    (∀ s, fetch_latest_semver_tag
        (fun _ => Except.ok ["v1.2.0".data, "latest".data, "v1.10.0".data])
        "horusec-go".data = Except.ok s →
      ∃ m : Nat × Nat × Nat,
        (∃ t ∈ ["v1.2.0".data, "latest".data, "v1.10.0".data], parse_semver t = some m) ∧
        (∀ t ∈ ["v1.2.0".data, "latest".data, "v1.10.0".data], ∀ w,
            parse_semver t = some w → tripLe w m) ∧
        s = formatSemver m)) :=
  ⟨rfl, fetch_latest_semver_tag_spec _ _ _ rfl⟩

/-! ## C6: `parse_semver` against the exact stable pattern -/

theorem expectChar_some {c : Char} {s r : Str} :
    expectChar c s = some r ↔ s = c :: r := by
  cases s with
  | nil => simp [expectChar]
  | cons c' rest =>
    by_cases h : c' = c
    · subst h
      simp [expectChar]
    · simp [expectChar, h, List.cons.injEq]

theorem takeNum_eq_some {s d r : Str} (h : takeNum s = some (d, r)) :
    s = d ++ r ∧ d ≠ [] ∧ (∀ x ∈ d, x.isDigit = true) := by
  unfold takeNum at h
  by_cases hd : s.takeWhile Char.isDigit = []
  · simp [hd] at h
  · rw [if_neg hd] at h
    have hpair : s.takeWhile Char.isDigit = d ∧ s.dropWhile Char.isDigit = r := by
      simpa using h
    obtain ⟨h1, h2⟩ := hpair
    subst h1
    subst h2
    refine ⟨(List.takeWhile_append_dropWhile _ _).symm, hd, ?_⟩
    intro x hx
    exact List.mem_takeWhile_imp hx

theorem takeNum_build {d r : Str} (hd : d ≠ []) (hdig : ∀ x ∈ d, x.isDigit = true)
    (hr : ∀ c cs, r = c :: cs → c.isDigit = false) :
    takeNum (d ++ r) = some (d, r) := by
  have ht : (d ++ r).takeWhile Char.isDigit = d := by
    rw [takeWhile_append_all hdig]
    cases r with
    | nil => simp
    | cons c cs => rw [takeWhile_cons_false (hr c cs rfl)]; simp
  have hdr : (d ++ r).dropWhile Char.isDigit = r := by
    rw [dropWhile_append_all hdig]
    cases r with
    | nil => simp
    | cons c cs => rw [dropWhile_cons_false (hr c cs rfl)]
  unfold takeNum
  rw [ht, hdr, if_neg hd]

/-- C6, counterexample: `"v1.2.3\n"` does not match
`v<digits>.<digits>.<digits>` exactly, yet `parse_semver` accepts it
(Python's `$` matches before a single final newline) and returns the
triple. -/
theorem parse_semver_counterexample :
    ¬ stableSemverExact "v1.2.3\n".data ∧
    parse_semver "v1.2.3\n".data = some (1, 2, 3) :=
  ⟨trailing_newline_not_exact (by decide), rfl⟩

/-- C6, amended: `parse_semver` returns a triple exactly on strings of the
shape `v<digits>.<digits>.<digits>` followed by nothing or by one final
newline, and the triple returned is the decimal value of the three digit
groups; every other string yields `none`. -/
theorem parse_semver_characterization (t : Str) (a b c : Nat) :
    parse_semver t = some (a, b, c) ↔
    ∃ d1 d2 d3 suf : Str,
      t = 'v' :: (d1 ++ '.' :: (d2 ++ '.' :: (d3 ++ suf))) ∧
      d1 ≠ [] ∧ d2 ≠ [] ∧ d3 ≠ [] ∧
      (∀ x ∈ d1, x.isDigit = true) ∧ (∀ x ∈ d2, x.isDigit = true) ∧
      (∀ x ∈ d3, x.isDigit = true) ∧
      (suf = [] ∨ suf = ['\n']) ∧
      a = digitsVal d1 ∧ b = digitsVal d2 ∧ c = digitsVal d3 := by
  constructor
  · intro hp
    unfold parse_semver at hp
    rcases hv : expectChar 'v' t with _ | r1
    · rw [hv] at hp; exact Option.noConfusion hp
    simp only [hv, Option.some_bind] at hp
    rcases hn1 : takeNum r1 with _ | ⟨d1, s1⟩
    · rw [hn1] at hp; exact Option.noConfusion hp
    simp only [hn1, Option.some_bind] at hp
    rcases hq1 : expectChar '.' s1 with _ | r2
    · rw [hq1] at hp; exact Option.noConfusion hp
    simp only [hq1, Option.some_bind] at hp
    rcases hn2 : takeNum r2 with _ | ⟨d2, s2⟩
    · rw [hn2] at hp; exact Option.noConfusion hp
    simp only [hn2, Option.some_bind] at hp
    rcases hq2 : expectChar '.' s2 with _ | r3
    · rw [hq2] at hp; exact Option.noConfusion hp
    simp only [hq2, Option.some_bind] at hp
    rcases hn3 : takeNum r3 with _ | ⟨d3, s3⟩
    · rw [hn3] at hp; exact Option.noConfusion hp
    simp only [hn3, Option.some_bind] at hp
    by_cases hsuf : s3 = [] ∨ s3 = ['\n']
    · rw [if_pos hsuf] at hp
      have hvals : digitsVal d1 = a ∧ digitsVal d2 = b ∧ digitsVal d3 = c := by
        simpa using hp
      obtain ⟨ha, hb, hc⟩ := hvals
      obtain ⟨he1, hne1, hg1⟩ := takeNum_eq_some hn1
      obtain ⟨he2, hne2, hg2⟩ := takeNum_eq_some hn2
      obtain ⟨he3, hne3, hg3⟩ := takeNum_eq_some hn3
      have ht : t = 'v' :: r1 := expectChar_some.mp hv
      have hs1 : s1 = '.' :: r2 := expectChar_some.mp hq1
      have hs2 : s2 = '.' :: r3 := expectChar_some.mp hq2
      refine ⟨d1, d2, d3, s3, ?_, hne1, hne2, hne3, hg1, hg2, hg3, hsuf,
        ha.symm, hb.symm, hc.symm⟩
      rw [ht, he1, hs1, he2, hs2, he3]
    · rw [if_neg hsuf] at hp
      cases hp
  · rintro ⟨d1, d2, d3, suf, ht, hd1, hd2, hd3, hg1, hg2, hg3, hsuf, ha, hb, hc⟩
    subst ht
    subst ha
    subst hb
    subst hc
    have h1 : expectChar 'v' ('v' :: (d1 ++ '.' :: (d2 ++ '.' :: (d3 ++ suf))))
        = some (d1 ++ '.' :: (d2 ++ '.' :: (d3 ++ suf))) := by
      simp [expectChar]
    have h2 : takeNum (d1 ++ '.' :: (d2 ++ '.' :: (d3 ++ suf)))
        = some (d1, '.' :: (d2 ++ '.' :: (d3 ++ suf))) := by
      refine takeNum_build hd1 hg1 ?_
      intro x xs hx
      injection hx with hx1 _
      subst hx1
      decide
    have h3 : expectChar '.' ('.' :: (d2 ++ '.' :: (d3 ++ suf)))
        = some (d2 ++ '.' :: (d3 ++ suf)) := by
      simp [expectChar]
    have h4 : takeNum (d2 ++ '.' :: (d3 ++ suf)) = some (d2, '.' :: (d3 ++ suf)) := by
      refine takeNum_build hd2 hg2 ?_
      intro x xs hx
      injection hx with hx1 _
      subst hx1
      decide
    have h5 : expectChar '.' ('.' :: (d3 ++ suf)) = some (d3 ++ suf) := by
      simp [expectChar]
    have h6 : takeNum (d3 ++ suf) = some (d3, suf) := by
      refine takeNum_build hd3 hg3 ?_
      intro x xs hx
      rcases hsuf with rfl | rfl
      · cases hx
      · injection hx with hx1 _
        subst hx1
        decide
    unfold parse_semver
    simp only [h1, h2, h3, h4, h5, h6, Option.some_bind]
    rw [if_pos hsuf]

/-! ## C8, C9: the Registry Tag Client -/

/-- C8: over any finite page chain (every page but the last carries a
truthy `next` reference, the last does not), the pagination loop terminates
and returns exactly the concatenation of every page's tag names. -/
theorem fetch_tags_chain_spec (pages : List Page) (h : chainOk pages) :
    fetch_tags_responses (pages.map Except.ok) =
      Except.ok (listJoin (pages.map pageNames)) := by
  induction pages with
  | nil => exact absurd h (by simp [chainOk])
  | cons p rest ih =>
    cases rest with
    | nil =>
      have hn : nextTruthy p.next = false := h
      simp [fetch_tags_responses, hn, listJoin]
    | cons q rest' =>
      obtain ⟨hn, hc⟩ := h
      have hr := ih hc
      simp only [List.map_cons] at hr ⊢
      rw [fetch_tags_responses, if_pos hn, hr]
      simp [listJoin]

/-- C8, witness: a two-page chain. -/
theorem fetch_tags_chain_spec_witness :
    chainOk [Page.mk [some "a".data, none] (some "u".data), Page.mk [some "b".data] none] ∧
    fetch_tags_responses
        ([Page.mk [some "a".data, none] (some "u".data),
          Page.mk [some "b".data] none].map Except.ok) =
      Except.ok (listJoin
        ([Page.mk [some "a".data, none] (some "u".data),
          Page.mk [some "b".data] none].map pageNames)) :=
  ⟨⟨rfl, rfl⟩, fetch_tags_chain_spec _ ⟨rfl, rfl⟩⟩

/-- C9: after any run of successful pages that each demand a next page, a
failing request surfaces its error as the result of `fetch_tags` (never a
silent partial result), and the loop stops there without retrying: the
request count is exactly the number of pages seen plus the one failing
request. -/
theorem fetch_tags_error_spec (okPages : List Page) (e : Err)
    (rest : List (Except Err Page)) (h : ∀ p ∈ okPages, nextTruthy p.next = true) :
    fetch_tags_responses (okPages.map Except.ok ++ Except.error e :: rest) =
      Except.error e ∧
    fetch_tags_requestCount (okPages.map Except.ok ++ Except.error e :: rest) =
      okPages.length + 1 := by
  induction okPages with
  | nil => simp [fetch_tags_responses, fetch_tags_requestCount]
  | cons p ps ih =>
    have hp : nextTruthy p.next = true := h p (List.mem_cons_self _ _)
    have ih' := ih (fun q hq => h q (List.mem_cons_of_mem _ hq))
    constructor
    · simp only [List.map_cons, List.cons_append]
      rw [fetch_tags_responses, if_pos hp, ih'.1]
    · simp only [List.map_cons, List.cons_append]
      rw [fetch_tags_requestCount, if_pos hp, ih'.2]
      simp
      omega

/-! ## The constant-table parser: dict characterization -/

theorem takeWhile_append_keep {p : Char → Bool} {a b : Str}
    (ha : ∀ x ∈ a, p x = true) (hb : ∀ c cs, b = c :: cs → p c = false) :
    (a ++ b).takeWhile p = a := by
  rw [takeWhile_append_all ha]
  cases b with
  | nil => simp
  | cons c cs => rw [takeWhile_cons_false (hb c cs rfl)]; simp

theorem dropWhile_append_keep {p : Char → Bool} {a b : Str}
    (ha : ∀ x ∈ a, p x = true) (hb : ∀ c cs, b = c :: cs → p c = false) :
    (a ++ b).dropWhile p = b := by
  rw [dropWhile_append_all ha]
  cases b with
  | nil => simp
  | cons c cs => rw [dropWhile_cons_false (hb c cs rfl)]

theorem expectIdentStart_some {s : Str} {c : Char} {cs : Str} :
    expectIdentStart s = some (c, cs) ↔ s = c :: cs ∧ isIdentStart c = true := by
  cases s with
  | nil => simp [expectIdentStart]
  | cons c' rest =>
    simp only [expectIdentStart]
    by_cases h : isIdentStart c'
    · rw [if_pos h]
      constructor
      · intro hc
        injection hc with hpair
        injection hpair with h1 h2
        subst h1
        subst h2
        exact ⟨rfl, h⟩
      · rintro ⟨heq, -⟩
        injection heq with h1 h2
        subst h1
        subst h2
        rfl
    · rw [if_neg h]
      constructor
      · intro hc
        cases hc
      · rintro ⟨heq, hst⟩
        injection heq with h1 h2
        subst h1
        exact absurd hst h

theorem lookupC_dictInsert (m : List (Str × Nat × Str)) (k k' : Str) (val : Nat × Str) :
    lookupC (dictInsert m k val) k' = if k = k' then some val else lookupC m k' := by
  induction m with
  | nil =>
    by_cases h : k = k' <;> simp [dictInsert, lookupC, h]
  | cons e rest ih =>
    obtain ⟨k0, v0⟩ := e
    by_cases h0 : k0 = k
    · subst h0
      by_cases h : k0 = k' <;> simp [dictInsert, lookupC, h]
    · by_cases h : k0 = k'
      · subst h
        have hkk : ¬ k = k0 := fun hc => h0 hc.symm
        simp [dictInsert, lookupC, h0, hkk]
      · simp [dictInsert, lookupC, h0, h, ih]

theorem lookupC_parseLoop (L : List Str) :
    ∀ (n : Nat) (m : List (Str × Nat × Str)) (c : Str),
    lookupC (parseLoop n L m) c =
      match (selMatchesFrom n L c).getLast? with
      | some e => some e
      | none => lookupC m c := by
  induction L with
  | nil => intro n m c; simp [parseLoop, selMatchesFrom]
  | cons l rest ih =>
    intro n m c
    rw [parseLoop, ih]
    rcases hm : matchLine l with _ | ⟨c', v⟩
    · rw [selMatchesFrom, hm]
      simp
    · by_cases hc : c' = c
      · subst hc
        rw [selMatchesFrom, hm]
        simp only [if_pos rfl]
        rcases hg : (selMatchesFrom (n + 1) rest c').getLast? with _ | e
        · rw [getLast?_append_none hg]
          simp [lookupC_dictInsert]
        · rw [getLast?_append_some hg]
      · rw [selMatchesFrom, hm]
        simp only [if_neg hc, List.nil_append]
        rcases hg : (selMatchesFrom (n + 1) rest c).getLast? with _ | e
        · simp [lookupC_dictInsert, hc]
        · rfl

/-- C7: the mapping built by `parse_image_constants` answers each
identifier with the `(line index, value)` pair of the *last* line matching
the assignment pattern with that identifier (`selMatchesFrom 0` lists the
matching lines in order; non-matching lines contribute nothing). -/
theorem parse_image_constants_last_wins (L : List Str) (c : Str) :
    lookupC (parse_image_constants L) c = (selMatchesFrom 0 L c).getLast? := by
  rw [parse_image_constants, lookupC_parseLoop]
  rcases (selMatchesFrom 0 L c).getLast? with _ | e <;> simp [lookupC]

theorem selMatchesFrom_cons_some {n : Nat} {l : Str} {rest : List Str} {c c' v : Str}
    (hm : matchLine l = some (c', v)) :
    selMatchesFrom n (l :: rest) c =
      (if c' = c then [(n, v)] else []) ++ selMatchesFrom (n + 1) rest c := by
  rw [selMatchesFrom, hm]

theorem selMatchesFrom_cons_none {n : Nat} {l : Str} {rest : List Str} {c : Str}
    (hm : matchLine l = none) :
    selMatchesFrom n (l :: rest) c = selMatchesFrom (n + 1) rest c := by
  rw [selMatchesFrom, hm]
  simp

theorem selMatchesFrom_entry {c : Str} :
    ∀ {L : List Str} {n : Nat} {e : Nat × Str}, e ∈ selMatchesFrom n L c →
    n ≤ e.1 ∧ e.1 - n < L.length ∧ matchLine (L.getD (e.1 - n) []) = some (c, e.2) := by
  intro L
  induction L with
  | nil => intro n e he; simp [selMatchesFrom] at he
  | cons l rest ih =>
    intro n e he
    rcases hm : matchLine l with _ | ⟨c', v⟩
    · rw [selMatchesFrom_cons_none hm] at he
      obtain ⟨h1, h2, h3⟩ := ih he
      refine ⟨by omega, by simp; omega, ?_⟩
      rw [show e.1 - n = (e.1 - (n + 1)) + 1 by omega, List.getD_cons_succ]
      exact h3
    · rw [selMatchesFrom_cons_some hm] at he
      rcases List.mem_append.mp he with h | h
      · by_cases hc : c' = c
        · rw [if_pos hc] at h
          rcases List.mem_singleton.mp h with rfl
          subst hc
          refine ⟨Nat.le_refl n, by simp, ?_⟩
          simpa using hm
        · rw [if_neg hc] at h
          simp at h
      · obtain ⟨h1, h2, h3⟩ := ih h
        refine ⟨by omega, by simp; omega, ?_⟩
        rw [show e.1 - n = (e.1 - (n + 1)) + 1 by omega, List.getD_cons_succ]
        exact h3

theorem lookupC_parse_sound {L : List Str} {c : Str} {i : Nat} {v : Str}
    (h : lookupC (parse_image_constants L) c = some (i, v)) :
    i < L.length ∧ matchLine (L.getD i []) = some (c, v) := by
  rw [parse_image_constants_last_wins] at h
  have hmem : (i, v) ∈ selMatchesFrom 0 L c := List.mem_of_mem_getLast? h
  obtain ⟨-, h2, h3⟩ := selMatchesFrom_entry hmem
  exact ⟨by simpa using h2, by simpa using h3⟩

/-! ## Decomposing and rebuilding matched lines -/

theorem space_not_identChar {c : Char} (h : pySpace c = true) : isIdentChar c = false := by
  rcases pySpace_cases h with h' | h' | h' | h' | h' | h' <;> subst h' <;> decide

theorem matchLine_decomp {l ident v : Str} (h : matchLine l = some (ident, v)) :
    ∃ (s1 : Str) (c0 : Char) (cs s2 s3 post : Str),
      ident = c0 :: cs ∧
      l = s1 ++ c0 :: (cs ++ (s2 ++ '=' :: (s3 ++ '"' :: (v ++ '"' :: post)))) ∧
      (∀ x ∈ s1, pySpace x = true) ∧ isIdentStart c0 = true ∧
      (∀ x ∈ cs, isIdentChar x = true) ∧
      (∀ x ∈ s2, pySpace x = true) ∧ (∀ x ∈ s3, pySpace x = true) ∧
      v ≠ [] ∧ (∀ x ∈ v, x ≠ '"') := by
  unfold matchLine at h
  rcases hs : expectIdentStart (l.dropWhile pySpace) with _ | ⟨c0, cs0⟩
  · rw [hs] at h; exact Option.noConfusion h
  simp only [hs, Option.some_bind] at h
  obtain ⟨hsd, hstart⟩ := expectIdentStart_some.mp hs
  rcases hq1 : expectChar '=' ((cs0.dropWhile isIdentChar).dropWhile pySpace) with _ | r4
  · rw [hq1] at h; exact Option.noConfusion h
  simp only [hq1, Option.some_bind] at h
  rcases hq2 : expectChar '"' (r4.dropWhile pySpace) with _ | r6
  · rw [hq2] at h; exact Option.noConfusion h
  simp only [hq2, Option.some_bind] at h
  by_cases hv : r6.takeWhile (fun d => d ≠ '"') = []
  · rw [if_pos hv] at h; exact Option.noConfusion h
  rw [if_neg hv] at h
  rcases hq3 : expectChar '"' (r6.dropWhile (fun d => d ≠ '"')) with _ | post0
  · rw [hq3] at h; exact Option.noConfusion h
  simp only [hq3, Option.some_bind] at h
  injection h with hpair
  injection hpair with hident hval
  have hl : l = l.takeWhile pySpace ++ (c0 :: cs0) := by
    conv_lhs => rw [← List.takeWhile_append_dropWhile pySpace l]
    rw [hsd]
  have hcs0 : cs0 = cs0.takeWhile isIdentChar ++ cs0.dropWhile isIdentChar :=
    (List.takeWhile_append_dropWhile _ _).symm
  have hr2 : cs0.dropWhile isIdentChar =
      (cs0.dropWhile isIdentChar).takeWhile pySpace ++ ('=' :: r4) := by
    conv_lhs =>
      rw [← List.takeWhile_append_dropWhile pySpace (cs0.dropWhile isIdentChar)]
    rw [expectChar_some.mp hq1]
  have hr4 : r4 = r4.takeWhile pySpace ++ ('"' :: r6) := by
    conv_lhs => rw [← List.takeWhile_append_dropWhile pySpace r4]
    rw [expectChar_some.mp hq2]
  have hr6 : r6 = v ++ ('"' :: post0) := by
    conv_lhs =>
      rw [← List.takeWhile_append_dropWhile (fun d => decide (d ≠ '"')) r6]
    rw [hval, expectChar_some.mp hq3]
  refine ⟨l.takeWhile pySpace, c0, cs0.takeWhile isIdentChar,
    (cs0.dropWhile isIdentChar).takeWhile pySpace, r4.takeWhile pySpace, post0,
    hident.symm, ?_, ?_, hstart, ?_, ?_, ?_, ?_, ?_⟩
  · calc l = l.takeWhile pySpace ++ (c0 :: cs0) := hl
      _ = l.takeWhile pySpace ++
          (c0 :: (cs0.takeWhile isIdentChar ++
            ((cs0.dropWhile isIdentChar).takeWhile pySpace ++ ('=' :: r4)))) := by
        conv_lhs => rw [hcs0, hr2]
      _ = l.takeWhile pySpace ++
          (c0 :: (cs0.takeWhile isIdentChar ++
            ((cs0.dropWhile isIdentChar).takeWhile pySpace ++
              ('=' :: (r4.takeWhile pySpace ++ ('"' :: r6)))))) := by
        conv_lhs => rw [hr4]
      _ = _ := by
        conv_lhs => rw [hr6]
  · intro x hx; exact List.mem_takeWhile_imp hx
  · intro x hx; exact List.mem_takeWhile_imp hx
  · intro x hx; exact List.mem_takeWhile_imp hx
  · intro x hx; exact List.mem_takeWhile_imp hx
  · rw [← hval]; exact hv
  · intro x hx
    rw [← hval] at hx
    simpa using List.mem_takeWhile_imp hx

theorem matchLine_build {s1 : Str} {c0 : Char} {cs s2 s3 post w : Str}
    (h1 : ∀ x ∈ s1, pySpace x = true) (hc0 : isIdentStart c0 = true)
    (hcs : ∀ x ∈ cs, isIdentChar x = true)
    (h2 : ∀ x ∈ s2, pySpace x = true) (h3 : ∀ x ∈ s3, pySpace x = true)
    (hw : w ≠ []) (hwq : ∀ x ∈ w, x ≠ '"') :
    matchLine (s1 ++ c0 :: (cs ++ (s2 ++ '=' :: (s3 ++ '"' :: (w ++ '"' :: post))))) =
      some (c0 :: cs, w) := by
  have hbIdent : ∀ c cs', s2 ++ '=' :: (s3 ++ '"' :: (w ++ '"' :: post)) = c :: cs' →
      isIdentChar c = false := by
    intro c cs' heq
    rcases hs2 : s2 with _ | ⟨a, as⟩
    · rw [hs2, List.nil_append] at heq
      injection heq with e1 _
      subst e1
      decide
    · rw [hs2, List.cons_append] at heq
      injection heq with e1 _
      subst e1
      exact space_not_identChar (h2 _ (by rw [hs2]; exact List.mem_cons_self _ _))
  have hdrop1 : (s1 ++ c0 :: (cs ++ (s2 ++ '=' :: (s3 ++ '"' :: (w ++ '"' :: post))))).dropWhile
      pySpace = c0 :: (cs ++ (s2 ++ '=' :: (s3 ++ '"' :: (w ++ '"' :: post)))) := by
    refine dropWhile_append_keep h1 ?_
    intro c cs' heq
    injection heq with e1 _
    subst e1
    exact identStart_not_space hc0
  have hident : expectIdentStart
      (c0 :: (cs ++ (s2 ++ '=' :: (s3 ++ '"' :: (w ++ '"' :: post))))) =
      some (c0, cs ++ (s2 ++ '=' :: (s3 ++ '"' :: (w ++ '"' :: post)))) := by
    simp [expectIdentStart, hc0]
  have hdropIdent : (cs ++ (s2 ++ '=' :: (s3 ++ '"' :: (w ++ '"' :: post)))).dropWhile
      isIdentChar = s2 ++ '=' :: (s3 ++ '"' :: (w ++ '"' :: post)) :=
    dropWhile_append_keep hcs hbIdent
  have hidTake : (cs ++ (s2 ++ '=' :: (s3 ++ '"' :: (w ++ '"' :: post)))).takeWhile
      isIdentChar = cs :=
    takeWhile_append_keep hcs hbIdent
  have hdropSp2 : (s2 ++ '=' :: (s3 ++ '"' :: (w ++ '"' :: post))).dropWhile pySpace =
      '=' :: (s3 ++ '"' :: (w ++ '"' :: post)) := by
    refine dropWhile_append_keep h2 ?_
    intro c cs' heq
    injection heq with e1 _
    subst e1
    decide
  have hexpEq : expectChar '=' ('=' :: (s3 ++ '"' :: (w ++ '"' :: post))) =
      some (s3 ++ '"' :: (w ++ '"' :: post)) := by
    simp [expectChar]
  have hdropSp3 : (s3 ++ '"' :: (w ++ '"' :: post)).dropWhile pySpace =
      '"' :: (w ++ '"' :: post) := by
    refine dropWhile_append_keep h3 ?_
    intro c cs' heq
    injection heq with e1 _
    subst e1
    decide
  have hexpQ : expectChar '"' ('"' :: (w ++ '"' :: post)) = some (w ++ '"' :: post) := by
    simp [expectChar]
  have hwB : ∀ x ∈ w, (fun d => decide (d ≠ '"')) x = true := by
    intro x hx
    simpa using hwq x hx
  have htakeW : (w ++ '"' :: post).takeWhile (fun d => d ≠ '"') = w := by
    refine takeWhile_append_keep hwB ?_
    intro c cs' heq
    injection heq with e1 _
    subst e1
    simp
  have hdropW : (w ++ '"' :: post).dropWhile (fun d => d ≠ '"') = '"' :: post := by
    refine dropWhile_append_keep hwB ?_
    intro c cs' heq
    injection heq with e1 _
    subst e1
    simp
  have hexpQ2 : expectChar '"' ('"' :: post) = some post := by
    simp [expectChar]
  unfold matchLine
  rw [hdrop1]
  simp only [hident, Option.some_bind, hdropIdent, hdropSp2, hexpEq, hdropSp3, hexpQ,
    htakeW, hdropW, hexpQ2, hidTake]
  rw [if_neg hw]

/-! ## C10: invariants of the parsed mapping -/

theorem occursAt_append (a v b : Str) : occursAt v (a ++ (v ++ b)) a.length := by
  unfold occursAt
  rw [List.drop_left, List.take_left]

/-- C10: every entry of the mapping built by `parse_image_constants` carries
a line index inside the buffer and a non-empty, quote-free value that occurs
as a substring of that very line — hence `apply_updates` never indexes out
of the buffer and its single-occurrence replacement always finds the value
on the recorded line. -/
theorem parse_image_constants_invariants (L : List Str) (c : Str) (i : Nat) (v : Str)
    (h : lookupC (parse_image_constants L) c = some (i, v)) :
    i < L.length ∧ v ≠ [] ∧ (∀ x ∈ v, x ≠ '"') ∧
    ∃ k, occursAt v (L.getD i []) k := by
  obtain ⟨hi, hm⟩ := lookupC_parse_sound h
  obtain ⟨s1, c0, cs, s2, s3, post, hident, hl, _, _, _, _, _, hv, hq⟩ := matchLine_decomp hm
  refine ⟨hi, hv, hq, ?_⟩
  have hassoc : s1 ++ c0 :: (cs ++ (s2 ++ '=' :: (s3 ++ '"' :: (v ++ '"' :: post)))) =
      (s1 ++ c0 :: (cs ++ (s2 ++ '=' :: (s3 ++ ['"'])))) ++ (v ++ '"' :: post) := by
    simp
  rw [hl, hassoc]
  exact ⟨_, occursAt_append _ _ _⟩

/-- C10, witness: one concrete assignment line. -/
theorem parse_image_constants_invariants_witness :
    lookupC (parse_image_constants ["Go = \"a/go:v1\"".data]) "Go".data =
      some (0, "a/go:v1".data) ∧
    (0 < (["Go = \"a/go:v1\"".data] : List Str).length ∧ "a/go:v1".data ≠ [] ∧
      (∀ x ∈ "a/go:v1".data, x ≠ '"') ∧
      ∃ k, occursAt "a/go:v1".data ((["Go = \"a/go:v1\"".data] : List Str).getD 0 []) k) := by
  constructor
  · rfl
  · exact parse_image_constants_invariants _ "Go".data _ _ (by rfl)

/-! ## The lexicographic string order and the stable sort -/

theorem lexLt_irrefl : ∀ a : Str, lexLt a a = false := by
  intro a
  induction a with
  | nil => rfl
  | cons x xs ih => simp [lexLt, ih]

theorem lexLt_trans : ∀ {a b c : Str}, lexLt a b = true → lexLt b c = true →
    lexLt a c = true := by
  intro a
  induction a with
  | nil =>
    intro b c h1 h2
    cases b with
    | nil => simp [lexLt] at h1
    | cons y ys =>
      cases c with
      | nil => simp [lexLt] at h2
      | cons z zs => rfl
  | cons x xs ih =>
    intro b c h1 h2
    cases b with
    | nil => simp [lexLt] at h1
    | cons y ys =>
      cases c with
      | nil => simp [lexLt] at h2
      | cons z zs =>
        simp only [lexLt] at h1 h2 ⊢
        by_cases hxy : x < y
        · by_cases hyz : y < z
          · rw [if_pos (lt_trans hxy hyz)]
          · rw [if_neg hyz] at h2
            by_cases heq : y = z
            · subst heq; rw [if_pos hxy]
            · rw [if_neg heq] at h2; cases h2
        · rw [if_neg hxy] at h1
          by_cases heq : x = y
          · subst heq
            rw [if_pos rfl] at h1
            by_cases hyz : x < z
            · rw [if_pos hyz]
            · rw [if_neg hyz] at h2 ⊢
              by_cases heq2 : x = z
              · rw [if_pos heq2] at h2 ⊢
                exact ih h1 h2
              · rw [if_neg heq2] at h2; cases h2
          · rw [if_neg heq] at h1; cases h1

theorem lexLt_trichotomy : ∀ a b : Str, lexLt a b = true ∨ lexLt b a = true ∨ a = b := by
  intro a
  induction a with
  | nil =>
    intro b
    cases b with
    | nil => right; right; rfl
    | cons y ys => left; rfl
  | cons x xs ih =>
    intro b
    cases b with
    | nil => right; left; rfl
    | cons y ys =>
      simp only [lexLt]
      by_cases hxy : x < y
      · left; rw [if_pos hxy]
      · by_cases hyx : y < x
        · right; left; rw [if_pos hyx]
        · have hxyeq : x = y := le_antisymm (not_lt.mp hyx) (not_lt.mp hxy)
          subst hxyeq
          rw [if_neg hxy, if_pos rfl, if_neg hxy, if_pos rfl]
          rcases ih ys with h | h | h
          · left; exact h
          · right; left; exact h
          · right; right; rw [h]

theorem lexLt_asymm {a b : Str} (h : lexLt a b = true) : lexLt b a = false := by
  by_contra hc
  have hba : lexLt b a = true := Bool.of_not_eq_false hc
  have := lexLt_trans h hba
  rw [lexLt_irrefl] at this
  cases this

theorem lexLt_false_trans {a b c : Str} (h1 : lexLt b a = false)
    (h2 : lexLt c b = false) : lexLt c a = false := by
  by_contra hc
  have hca : lexLt c a = true := Bool.of_not_eq_false hc
  rcases lexLt_trichotomy b c with h | h | h
  · have := lexLt_trans h hca
    rw [this] at h1
    cases h1
  · rw [h] at h2
    cases h2
  · subst h
    rw [hca] at h1
    cases h1

theorem updLe_iff {a b : ImageUpdate} :
    updLe a b ↔ lexLt b.const_name a.const_name = false := by
  unfold updLe lexLe
  cases h : lexLt b.const_name a.const_name <;> simp

theorem updLe_trans {a b c : ImageUpdate} (h1 : updLe a b) (h2 : updLe b c) :
    updLe a c := by
  rw [updLe_iff] at h1 h2 ⊢
  exact lexLt_false_trans h1 h2

theorem insAfter_perm (a : ImageUpdate) (l : List ImageUpdate) :
    (insAfter a l).Perm (a :: l) := by
  induction l with
  | nil => exact List.Perm.refl _
  | cons b bs ih =>
    rw [insAfter]
    split
    · exact (ih.cons b).trans (List.Perm.swap a b bs)
    · exact List.Perm.refl _

theorem foldl_ins_perm : ∀ (l acc : List ImageUpdate),
    (l.foldl (fun acc a => insAfter a acc) acc).Perm (acc ++ l) := by
  intro l
  induction l with
  | nil => intro acc; simp
  | cons a as ih =>
    intro acc
    rw [List.foldl_cons]
    refine (ih (insAfter a acc)).trans ?_
    refine (((insAfter_perm a acc)).append_right as).trans ?_
    exact List.perm_middle.symm

theorem sortByName_perm (l : List ImageUpdate) : (sortByName l).Perm l := by
  have := foldl_ins_perm l []
  simpa [sortByName] using this

theorem insAfter_sorted {a : ImageUpdate} {l : List ImageUpdate}
    (h : l.Pairwise updLe) : (insAfter a l).Pairwise updLe := by
  induction l with
  | nil => simp [insAfter]
  | cons b bs ih =>
    rw [List.pairwise_cons] at h
    obtain ⟨hb, hbs⟩ := h
    by_cases hcond : lexLe b.const_name a.const_name = true
    · rw [insAfter, if_pos hcond, List.pairwise_cons]
      constructor
      · intro x hx
        have hx2 : x ∈ a :: bs := ((insAfter_perm a bs).mem_iff).mp hx
        rcases List.mem_cons.mp hx2 with rfl | hx3
        · exact hcond
        · exact hb x hx3
      · exact ih hbs
    · rw [insAfter, if_neg hcond, List.pairwise_cons]
      constructor
      · intro x hx
        have hab : updLe a b := by
          rw [updLe_iff]
          unfold lexLe at hcond
          have hlt2 : lexLt a.const_name b.const_name = true := by
            cases hlt : lexLt a.const_name b.const_name
            · rw [hlt] at hcond; simp at hcond
            · rfl
          exact lexLt_asymm hlt2
        rcases List.mem_cons.mp hx with rfl | hx3
        · exact hab
        · exact updLe_trans hab (hb x hx3)
      · exact List.pairwise_cons.mpr ⟨hb, hbs⟩

theorem foldl_ins_sorted : ∀ (l acc : List ImageUpdate), acc.Pairwise updLe →
    (l.foldl (fun acc a => insAfter a acc) acc).Pairwise updLe := by
  intro l
  induction l with
  | nil => intro acc h; exact h
  | cons a as ih =>
    intro acc h
    rw [List.foldl_cons]
    exact ih _ (insAfter_sorted h)

theorem sortByName_sorted (l : List ImageUpdate) : (sortByName l).Pairwise updLe :=
  foldl_ins_sorted l [] (List.Pairwise.nil)

/-! ## Characterizing the Update Planner -/

theorem ok_bind {a b : Type} (x : a) (f : a → Except Err b) :
    (Except.ok x).bind f = f x := rfl

theorem err_bind {a b : Type} (e : Err) (f : a → Except Err b) :
    (Except.error e).bind f = Except.error e := rfl

theorem req_none {a : Type} (e : Err) : req e (none : Option a) = Except.error e := rfl

theorem req_some {a : Type} (e : Err) (x : a) : req e (some x) = Except.ok x := rfl

theorem planLoop_cons_err1 {tagsOf constants p rest e}
    (h : planStep tagsOf constants p = Except.error e) :
    planLoop tagsOf constants (p :: rest) = Except.error e := by
  rw [planLoop, h]

theorem planLoop_cons_err2 {tagsOf constants p rest r e}
    (h1 : planStep tagsOf constants p = Except.ok r)
    (h2 : planLoop tagsOf constants rest = Except.error e) :
    planLoop tagsOf constants (p :: rest) = Except.error e := by
  rw [planLoop, h1, h2]

theorem planLoop_cons_ok {tagsOf constants p rest r us}
    (h1 : planStep tagsOf constants p = Except.ok r)
    (h2 : planLoop tagsOf constants rest = Except.ok us) :
    planLoop tagsOf constants (p :: rest) =
      Except.ok (r.elim us (fun u => u :: us)) := by
  rw [planLoop, h1, h2]

theorem planStep_ok_elim {tagsOf constants p r}
    (h : planStep tagsOf constants p = Except.ok r) :
    ∃ i v cur latest, lookupC constants p.1 = some (i, v) ∧
      extract_image_tag v = Except.ok cur ∧
      fetch_latest_semver_tag tagsOf p.2 = Except.ok latest ∧
      (parse_semver latest).isSome = true ∧
      r = (if cur ≠ latest then some (ImageUpdate.mk p.1 p.2 cur latest) else none) := by
  unfold planStep at h
  rcases hl : lookupC constants p.1 with _ | ⟨i, v⟩
  · rw [hl, req_none, err_bind] at h
    exact Except.noConfusion h
  simp only [hl, req_some, ok_bind] at h
  rcases he : extract_image_tag v with e | cur
  · rw [he, err_bind] at h
    exact Except.noConfusion h
  simp only [he, ok_bind] at h
  rcases hf : fetch_latest_semver_tag tagsOf p.2 with e | latest
  · rw [hf, err_bind] at h
    exact Except.noConfusion h
  simp only [hf, ok_bind] at h
  by_cases hps : (parse_semver latest).isSome = true
  · rw [if_pos hps] at h
    injection h with h2
    exact ⟨i, v, cur, latest, rfl, he, rfl, hps, h2.symm⟩
  · rw [if_neg hps] at h
    exact Except.noConfusion h

theorem planStep_ok_intro {tagsOf constants p i v cur latest}
    (hl : lookupC constants p.1 = some (i, v))
    (he : extract_image_tag v = Except.ok cur)
    (hf : fetch_latest_semver_tag tagsOf p.2 = Except.ok latest)
    (hps : (parse_semver latest).isSome = true) :
    planStep tagsOf constants p =
      Except.ok (if cur ≠ latest then some (ImageUpdate.mk p.1 p.2 cur latest) else none) := by
  unfold planStep
  simp only [hl, req_some, ok_bind, he, hf]
  rw [if_pos hps]

theorem planLoop_ok_iff {tagsOf constants} : ∀ {mapping : List (Str × Str)}
    {us : List ImageUpdate},
    planLoop tagsOf constants mapping = Except.ok us ↔
    ((∀ p ∈ mapping, stepCheck tagsOf constants p = true) ∧
     us = mapping.filterMap (recOf tagsOf constants)) := by
  intro mapping
  induction mapping with
  | nil =>
    intro us
    constructor
    · intro h
      injection h with h2
      exact ⟨fun p hp => absurd hp (List.not_mem_nil p), h2.symm⟩
    · rintro ⟨-, rfl⟩
      rfl
  | cons p rest ih =>
    intro us
    constructor
    · intro h
      rcases hs : planStep tagsOf constants p with e | r
      · rw [planLoop_cons_err1 hs] at h
        exact Except.noConfusion h
      rcases hrest : planLoop tagsOf constants rest with e | us2
      · rw [planLoop_cons_err2 hs hrest] at h
        exact Except.noConfusion h
      rw [planLoop_cons_ok hs hrest] at h
      injection h with h2
      obtain ⟨hall, hus⟩ := ih.mp hrest
      constructor
      · intro q hq
        rcases List.mem_cons.mp hq with rfl | hq2
        · unfold stepCheck
          rw [hs]
          rfl
        · exact hall q hq2
      · have hr : recOf tagsOf constants p = r := by
          unfold recOf
          rw [hs]
          rfl
        rw [List.filterMap_cons, hr]
        rcases r with _ | u
        · simpa [Option.elim, hus] using h2.symm
        · simpa [Option.elim, hus] using h2.symm
    · rintro ⟨hall, rfl⟩
      have hsc : stepCheck tagsOf constants p = true := hall p (List.mem_cons_self _ _)
      rcases hps : planStep tagsOf constants p with e | r
      · unfold stepCheck at hsc
        rw [hps] at hsc
        exact absurd hsc (by simp [excOk])
      have hrest : planLoop tagsOf constants rest =
          Except.ok (rest.filterMap (recOf tagsOf constants)) :=
        ih.mpr ⟨fun q hq => hall q (List.mem_cons_of_mem _ hq), rfl⟩
      rw [planLoop_cons_ok hps hrest]
      have hr : recOf tagsOf constants p = r := by
        unfold recOf
        rw [hps]
        rfl
      rw [List.filterMap_cons, hr]
      rcases r with _ | u <;> rfl

theorem compute_updates_over_ok {tagsOf mapping constants us0}
    (hp : planLoop tagsOf constants mapping = Except.ok us0) :
    compute_updates_over tagsOf mapping constants = Except.ok (sortByName us0) := by
  unfold compute_updates_over
  rw [hp]

theorem compute_updates_over_err {tagsOf mapping constants e}
    (hp : planLoop tagsOf constants mapping = Except.error e) :
    compute_updates_over tagsOf mapping constants = Except.error e := by
  unfold compute_updates_over
  rw [hp]

/-- C4: whenever `compute_updates` (over any tracked mapping, hence
regardless of its order, and over any registry answer function) succeeds,
the returned Update Records are sorted by identifier under the
lexicographic string order, and for every mapping entry the record built
from its resolved current and latest tags is present iff the two differ. -/
theorem compute_updates_sorted_and_complete (tagsOf : Str → Except Err (List Str))
    (mapping : List (Str × Str)) (constants : List (Str × Nat × Str))
    (us : List ImageUpdate)
    (h : compute_updates_over tagsOf mapping constants = Except.ok us) :
    us.Pairwise updLe ∧
    (∀ c repo, (c, repo) ∈ mapping →
      ∃ i v cur latest, lookupC constants c = some (i, v) ∧
        extract_image_tag v = Except.ok cur ∧
        fetch_latest_semver_tag tagsOf repo = Except.ok latest ∧
        (ImageUpdate.mk c repo cur latest ∈ us ↔ cur ≠ latest)) := by
  rcases hp : planLoop tagsOf constants mapping with e | us0
  · rw [compute_updates_over_err hp] at h
    exact Except.noConfusion h
  rw [compute_updates_over_ok hp] at h
  injection h with h2
  subst h2
  obtain ⟨hall, hus0⟩ := planLoop_ok_iff.mp hp
  constructor
  · exact sortByName_sorted us0
  · intro c repo hmem
    have hsc := hall (c, repo) hmem
    rcases hps : planStep tagsOf constants (c, repo) with e | r
    · unfold stepCheck at hsc
      rw [hps] at hsc
      exact absurd hsc (by simp [excOk])
    obtain ⟨i, v, cur, latest, hl, he, hf, hpsem, hr⟩ := planStep_ok_elim hps
    refine ⟨i, v, cur, latest, hl, he, hf, ?_⟩
    rw [(sortByName_perm us0).mem_iff, hus0]
    constructor
    · intro hin
      rcases List.mem_filterMap.mp hin with ⟨q, hq, hrq⟩
      unfold recOf at hrq
      rcases hq2 : planStep tagsOf constants q with e2 | r2
      · rw [hq2] at hrq
        simp [excValD] at hrq
      · obtain ⟨i2, v2, cur2, latest2, hl2, he2, hf2, hpsem2, hr2⟩ := planStep_ok_elim hq2
        rw [hq2] at hrq
        have hrq2 : r2 = some (ImageUpdate.mk c repo cur latest) := hrq
        rw [hr2] at hrq2
        by_cases hne : cur2 ≠ latest2
        · rw [if_pos hne] at hrq2
          injection hrq2 with hrec
          have hcur2 : cur2 = cur := congrArg ImageUpdate.from_tag hrec
          have hlat2 : latest2 = latest := congrArg ImageUpdate.to_tag hrec
          rw [hcur2, hlat2] at hne
          exact hne
        · rw [if_neg hne] at hrq2
          exact Option.noConfusion hrq2
    · intro hne
      refine List.mem_filterMap.mpr ⟨(c, repo), hmem, ?_⟩
      unfold recOf
      rw [hps, hr]
      rw [if_pos hne]
      rfl

/-- C4, witness: an unsorted two-entry mapping where one entry is stale and
one is current. -/
theorem compute_updates_sorted_and_complete_witness :
    compute_updates_over (fun _ => Except.ok ["v2.0.0".data])
        [("B".data, "rb".data), ("A".data, "ra".data)]
        [("A".data, (0, "x:v1.0.0".data)), ("B".data, (1, "y:v2.0.0".data))] =
      Except.ok [ImageUpdate.mk "A".data "ra".data "v1.0.0".data "v2.0.0".data] ∧
    ([ImageUpdate.mk "A".data "ra".data "v1.0.0".data "v2.0.0".data].Pairwise updLe ∧
     (∀ c repo, (c, repo) ∈ [("B".data, "rb".data), ("A".data, "ra".data)] →
       ∃ i v cur latest,
         lookupC [("A".data, (0, "x:v1.0.0".data)), ("B".data, (1, "y:v2.0.0".data))] c =
           some (i, v) ∧
         extract_image_tag v = Except.ok cur ∧
         fetch_latest_semver_tag (fun _ => Except.ok ["v2.0.0".data]) repo =
           Except.ok latest ∧
         (ImageUpdate.mk c repo cur latest ∈
            [ImageUpdate.mk "A".data "ra".data "v1.0.0".data "v2.0.0".data] ↔
          cur ≠ latest))) := by
  have h : compute_updates_over (fun _ => Except.ok ["v2.0.0".data])
      [("B".data, "rb".data), ("A".data, "ra".data)]
      [("A".data, (0, "x:v1.0.0".data)), ("B".data, (1, "y:v2.0.0".data))] =
      Except.ok [ImageUpdate.mk "A".data "ra".data "v1.0.0".data "v2.0.0".data] := by rfl
  exact ⟨h, compute_updates_sorted_and_complete _ _ _ _ h⟩

/-! ## C5: every error aborts the run before any file write -/

theorem runOnce_err {tagsOf : Str → Except Err (List Str)} {content : List Str} {e : Err}
    (h : compute_updates tagsOf (parse_image_constants content) = Except.error e) :
    runOnce tagsOf content = Except.error e := by
  unfold runOnce
  rw [h]

theorem mainModel_of_err {tagsOf : Str → Except Err (List Str)} {content : List Str}
    {e : Err} (h : runOnce tagsOf content = Except.error e) :
    mainModel tagsOf content = MainOutcome.mk 1 content false := by
  unfold mainModel
  rw [h]

/-- C5: if any tracked identifier's planning step fails (missing constant,
missing colon, retrieval failure, no stable version, or failed
re-validation), `main` exits with code 1, the source file keeps its original
content, and the report file is not written — even if other identifiers had
valid pending updates. -/
theorem error_aborts_before_writes (tagsOf : Str → Except Err (List Str))
    (content : List Str) (p : Str × Str)
    (hp : p ∈ TARGET_CONST_TO_REPOSITORY)
    (hfail : stepCheck tagsOf (parse_image_constants content) p = false) :
    mainModel tagsOf content = MainOutcome.mk 1 content false := by
  rcases hc : compute_updates tagsOf (parse_image_constants content) with e | us
  · exact mainModel_of_err (runOnce_err hc)
  · exfalso
    unfold compute_updates at hc
    rcases hpl : planLoop tagsOf (parse_image_constants content)
        TARGET_CONST_TO_REPOSITORY with e | us0
    · rw [compute_updates_over_err hpl] at hc
      exact Except.noConfusion hc
    · obtain ⟨hall, -⟩ := planLoop_ok_iff.mp hpl
      rw [hall p hp] at hfail
      cases hfail

/-- C5, witness: an empty constants file is missing the tracked constant
`C`, so the run aborts with the file and report untouched. -/
theorem error_aborts_before_writes_witness :
    (("C".data, "horusec-c".data) ∈ TARGET_CONST_TO_REPOSITORY) ∧
    stepCheck (fun _ => Except.ok []) (parse_image_constants [])
      ("C".data, "horusec-c".data) = false ∧
    mainModel (fun _ => Except.ok []) [] = MainOutcome.mk 1 [] false := by
  refine ⟨?_, ?_, ?_⟩
  · decide
  · rfl
  · exact error_aborts_before_writes _ _ ("C".data, "horusec-c".data)
      (by decide) (by rfl)

/-- C9, witness: one successful page demanding continuation, then a failing
request, with one further (never issued) response behind it. -/
theorem fetch_tags_error_spec_witness :
    (∀ p ∈ [Page.mk [] (some "u".data)], nextTruthy p.next = true) ∧
    (fetch_tags_responses ([Page.mk [] (some "u".data)].map Except.ok ++
        Except.error (Err.retrievalError "boom".data) ::
          [Except.ok (Page.mk [] none)]) =
      Except.error (Err.retrievalError "boom".data) ∧
     fetch_tags_requestCount ([Page.mk [] (some "u".data)].map Except.ok ++
        Except.error (Err.retrievalError "boom".data) ::
          [Except.ok (Page.mk [] none)]) =
      [Page.mk ([] : List (Option Str)) (some "u".data)].length + 1) := by
  have hh : ∀ p ∈ [Page.mk ([] : List (Option Str)) (some "u".data)],
      nextTruthy p.next = true := by
    intro p hp
    rcases List.mem_singleton.mp hp with rfl
    rfl
  exact ⟨hh, fetch_tags_error_spec _ _ _ hh⟩

/-! ## C2: the Patch Applier rewrites only the first occurrence -/

theorem applyLoop_cons_err {constants : List (Str × Nat × Str)} {ls : List Str}
    {u : ImageUpdate} {rest : List ImageUpdate} {e : Err}
    (h : applyOne constants ls u = Except.error e) :
    applyLoop constants ls (u :: rest) = Except.error e := by
  rw [applyLoop, h]

theorem applyLoop_cons_ok {constants : List (Str × Nat × Str)} {ls ls2 : List Str}
    {u : ImageUpdate} {rest : List ImageUpdate}
    (h : applyOne constants ls u = Except.ok ls2) :
    applyLoop constants ls (u :: rest) = applyLoop constants ls2 rest := by
  rw [applyLoop, h]

theorem applyOne_ok_intro {constants : List (Str × Nat × Str)} {ls : List Str}
    {u : ImageUpdate} {i : Nat} {v w : Str}
    (hl : lookupC constants u.const_name = some (i, v))
    (hw : replace_image_tag v u.to_tag = Except.ok w)
    (hi : i < ls.length) :
    applyOne constants ls u = Except.ok (ls.set i (replaceFirst v w (ls.getD i []))) := by
  unfold applyOne
  simp only [hl, req_some, ok_bind, hw]
  rw [if_pos hi]

theorem replaceFirst_no_occ {old new : Str} : ∀ {s : Str},
    (∀ k, ¬ occursAt old s k) → replaceFirst old new s = s := by
  intro s
  induction s with
  | nil =>
    intro h
    by_cases ho : old = []
    · refine absurd ?_ (h 0)
      unfold occursAt
      rw [ho]
      rfl
    · unfold replaceFirst
      rw [if_neg ho]
  | cons c s ih =>
    intro h
    have h0 : ¬ (c :: s).take old.length = old := by
      intro hc
      refine h 0 ?_
      unfold occursAt
      rw [List.drop_zero]
      exact hc
    unfold replaceFirst
    rw [if_neg h0]
    congr 1
    apply ih
    intro k hk
    refine h (k + 1) ?_
    unfold occursAt at hk ⊢
    rw [List.drop_succ_cons]
    exact hk

theorem replaceFirst_first_occ {old new : Str} : ∀ {s : Str} {k : Nat},
    occursAt old s k → (∀ j < k, ¬ occursAt old s j) →
    replaceFirst old new s = s.take k ++ new ++ s.drop (k + old.length) := by
  intro s
  induction s with
  | nil =>
    intro k hk hmin
    have ho : old = [] := by
      unfold occursAt at hk
      simpa using hk.symm
    subst ho
    unfold replaceFirst
    simp
  | cons c s ih =>
    intro k hk hmin
    cases k with
    | zero =>
      have h0 : (c :: s).take old.length = old := by
        unfold occursAt at hk
        rwa [List.drop_zero] at hk
      unfold replaceFirst
      rw [if_pos h0]
      simp
    | succ k2 =>
      have h0 : ¬ (c :: s).take old.length = old := by
        intro hc
        refine hmin 0 (Nat.succ_pos k2) ?_
        unfold occursAt
        rw [List.drop_zero]
        exact hc
      unfold replaceFirst
      rw [if_neg h0]
      have hk2 : occursAt old s k2 := by
        unfold occursAt at hk
        rwa [List.drop_succ_cons] at hk
      have hmin2 : ∀ j < k2, ¬ occursAt old s j := by
        intro j hj hocc
        refine hmin (j + 1) (by omega) ?_
        unfold occursAt
        rw [List.drop_succ_cons]
        exact hocc
      rw [ih hk2 hmin2]
      have hidx : k2 + 1 + old.length = (k2 + old.length) + 1 := by omega
      rw [hidx, List.drop_succ_cons, List.take_succ_cons]
      simp

/-- C2: under resolvable updates (each update's constant present with an
in-range line index and a colon-bearing value) targeting pairwise-distinct
lines, `apply_updates` succeeds and returns a buffer of the same length in
which every untargeted line is preserved byte-for-byte, and each targeted
line is obtained from the original by replacing only the first occurrence
of the recorded full value with the value whose tag suffix is swapped for
the update's target tag (the line is unchanged when the value does not
occur). -/
theorem apply_updates_frame : ∀ (us : List ImageUpdate) (L : List Str)
    (m : List (Str × Nat × Str)),
    (∀ u ∈ us, ∃ i v, lookupC m u.const_name = some (i, v) ∧ i < L.length ∧ ':' ∈ v) →
    us.Pairwise (fun u1 u2 => ∀ i1 v1 i2 v2,
      lookupC m u1.const_name = some (i1, v1) →
      lookupC m u2.const_name = some (i2, v2) → i1 ≠ i2) →
    ∃ out, apply_updates L m us = Except.ok out ∧
      out.length = L.length ∧
      (∀ j, (∀ u ∈ us, ∀ i v, lookupC m u.const_name = some (i, v) → i ≠ j) →
        out.getD j [] = L.getD j []) ∧
      (∀ u ∈ us, ∀ i v, lookupC m u.const_name = some (i, v) →
        ∃ w, replace_image_tag v u.to_tag = Except.ok w ∧
          ((∀ k, ¬ occursAt v (L.getD i []) k) → out.getD i [] = L.getD i []) ∧
          (∀ k, occursAt v (L.getD i []) k →
            (∀ j2, j2 < k → ¬ occursAt v (L.getD i []) j2) →
            out.getD i [] =
              (L.getD i []).take k ++ w ++ (L.getD i []).drop (k + v.length))) := by
  intro us
  induction us with
  | nil =>
    intro L m hres hdis
    refine ⟨L, rfl, rfl, fun j hj => rfl, fun u hu => absurd hu (List.not_mem_nil u)⟩
  | cons u rest ih =>
    intro L m hres hdis
    obtain ⟨i, v, hl, hi, hcolon⟩ := hres u (List.mem_cons_self _ _)
    have hw : replace_image_tag v u.to_tag =
        Except.ok (beforeLastColon v ++ ':' :: u.to_tag) := by
      unfold replace_image_tag
      rw [if_pos hcolon]
    set w := beforeLastColon v ++ ':' :: u.to_tag with hwdef
    set L2 := L.set i (replaceFirst v w (L.getD i [])) with hL2
    have hone : applyOne m L u = Except.ok L2 := applyOne_ok_intro hl hw hi
    have hlen2 : L2.length = L.length := by
      rw [hL2]
      simp
    obtain ⟨hhead, htail⟩ := List.pairwise_cons.mp hdis
    have hres2 : ∀ u2 ∈ rest, ∃ i2 v2,
        lookupC m u2.const_name = some (i2, v2) ∧ i2 < L2.length ∧ ':' ∈ v2 := by
      intro u2 hu2
      obtain ⟨i2, v2, hl2, hi2, hc2⟩ := hres u2 (List.mem_cons_of_mem _ hu2)
      exact ⟨i2, v2, hl2, by rw [hlen2]; exact hi2, hc2⟩
    obtain ⟨out, happly, hlen, hframe, hper⟩ := ih L2 m hres2 htail
    have hneq : ∀ u2 ∈ rest, ∀ i2 v2, lookupC m u2.const_name = some (i2, v2) →
        i2 ≠ i := by
      intro u2 hu2 i2 v2 hl2
      exact fun hc => (hhead u2 hu2 i v i2 v2 hl hl2) hc.symm
    have hL2at : ∀ j, j ≠ i → L2.getD j [] = L.getD j [] := by
      intro j hj
      rw [hL2]
      exact getD_set_ne (fun hc => hj hc.symm)
    refine ⟨out, ?_, by rw [hlen, hlen2], ?_, ?_⟩
    · rw [apply_updates, applyLoop_cons_ok hone]
      exact happly
    · intro j hj
      have hji : i ≠ j := hj u (List.mem_cons_self _ _) i v hl
      rw [hframe j ?_, hL2at j (fun hc => hji hc.symm)]
      intro u2 hu2 i2 v2 hl2
      exact hj u2 (List.mem_cons_of_mem _ hu2) i2 v2 hl2
    · intro u2 hu2 i2 v2 hl2
      rcases List.mem_cons.mp hu2 with rfl | hu3
      · -- the head update itself
        rw [hl] at hl2
        injection hl2 with hiv
        have hieq : i = i2 := congrArg Prod.fst hiv
        have hveq : v = v2 := congrArg Prod.snd hiv
        subst hieq
        subst hveq
        refine ⟨w, hw, ?_, ?_⟩
        · intro hnone
          have hout : out.getD i [] = L2.getD i [] := by
            refine hframe i ?_
            intro u3 hu3 i3 v3 hl3
            exact hneq u3 hu3 i3 v3 hl3
          rw [hout, hL2, getD_set_self hi]
          exact replaceFirst_no_occ hnone
        · intro k hk hmin
          have hout : out.getD i [] = L2.getD i [] := by
            refine hframe i ?_
            intro u3 hu3 i3 v3 hl3
            exact hneq u3 hu3 i3 v3 hl3
          rw [hout, hL2, getD_set_self hi]
          exact replaceFirst_first_occ hk (fun j2 hj2 => hmin j2 hj2)
      · -- an update of the tail
        have hi2i : i2 ≠ i := hneq u2 hu3 i2 v2 hl2
        obtain ⟨w2, hw2, hcase1, hcase2⟩ := hper u2 hu3 i2 v2 hl2
        rw [hL2at i2 hi2i] at hcase1 hcase2
        exact ⟨w2, hw2, hcase1, hcase2⟩

/-- C2, witness: one update on a one-line buffer whose value occurs twice on
the line; only the first occurrence is rewritten. -/
theorem apply_updates_frame_witness :
    (∀ u ∈ [ImageUpdate.mk "G".data "r".data "v1".data "v2".data],
      ∃ i v, lookupC [("G".data, (0, "a:v1".data))] u.const_name = some (i, v) ∧
        i < (["a:v1 a:v1".data] : List Str).length ∧ ':' ∈ v) ∧
    (∃ out, apply_updates ["a:v1 a:v1".data] [("G".data, (0, "a:v1".data))]
        [ImageUpdate.mk "G".data "r".data "v1".data "v2".data] = Except.ok out ∧
      out.length = (["a:v1 a:v1".data] : List Str).length ∧
      (∀ j, (∀ u ∈ [ImageUpdate.mk "G".data "r".data "v1".data "v2".data], ∀ i v,
          lookupC [("G".data, (0, "a:v1".data))] u.const_name = some (i, v) → i ≠ j) →
        out.getD j [] = (["a:v1 a:v1".data] : List Str).getD j []) ∧
      (∀ u ∈ [ImageUpdate.mk "G".data "r".data "v1".data "v2".data], ∀ i v,
        lookupC [("G".data, (0, "a:v1".data))] u.const_name = some (i, v) →
        ∃ w, replace_image_tag v u.to_tag = Except.ok w ∧
          ((∀ k, ¬ occursAt v ((["a:v1 a:v1".data] : List Str).getD i []) k) →
            out.getD i [] = (["a:v1 a:v1".data] : List Str).getD i []) ∧
          (∀ k, occursAt v ((["a:v1 a:v1".data] : List Str).getD i []) k →
            (∀ j2, j2 < k →
              ¬ occursAt v ((["a:v1 a:v1".data] : List Str).getD i []) j2) →
            out.getD i [] =
              ((["a:v1 a:v1".data] : List Str).getD i []).take k ++ w ++
                ((["a:v1 a:v1".data] : List Str).getD i []).drop (k + v.length)))) := by
  have hres : ∀ u ∈ [ImageUpdate.mk "G".data "r".data "v1".data "v2".data],
      ∃ i v, lookupC [("G".data, (0, "a:v1".data))] u.const_name = some (i, v) ∧
        i < (["a:v1 a:v1".data] : List Str).length ∧ ':' ∈ v := by
    intro u hu
    rcases List.mem_singleton.mp hu with rfl
    exact ⟨0, "a:v1".data, by decide, by decide, by decide⟩
  exact ⟨hres, apply_updates_frame _ _ _ hres (List.pairwise_singleton _ _)⟩

/-! ## Patching one line and re-parsing -/

theorem selMatchesFrom_set_other {x c v w c' : Str} (hx : matchLine x = some (c, w)) :
    ∀ {L : List Str} {i : Nat} (n : Nat), i < L.length →
    matchLine (L.getD i []) = some (c, v) → c' ≠ c →
    selMatchesFrom n (L.set i x) c' = selMatchesFrom n L c' := by
  intro L
  induction L with
  | nil => intro i n hi; simp at hi
  | cons l rest ih =>
    intro i n hi hm hne
    cases i with
    | zero =>
      have hml : matchLine l = some (c, v) := by simpa using hm
      rw [List.set_cons_zero, selMatchesFrom_cons_some hx, selMatchesFrom_cons_some hml]
      rw [if_neg (fun hc => hne hc.symm), if_neg (fun hc => hne hc.symm)]
    | succ i2 =>
      rw [List.getD_cons_succ] at hm
      have hi2 : i2 < rest.length := by simpa using hi
      rw [List.set_cons_succ]
      rcases hml : matchLine l with _ | ⟨c2, v2⟩
      · rw [selMatchesFrom_cons_none hml, selMatchesFrom_cons_none hml]
        exact ih (n + 1) hi2 hm hne
      · rw [selMatchesFrom_cons_some hml, selMatchesFrom_cons_some hml]
        rw [ih (n + 1) hi2 hm hne]

theorem selMatchesFrom_set_same {x c v w : Str} (hx : matchLine x = some (c, w)) :
    ∀ {L : List Str} {i : Nat} (n : Nat), i < L.length →
    matchLine (L.getD i []) = some (c, v) →
    (selMatchesFrom n L c).getLast? = some (n + i, v) →
    (selMatchesFrom n (L.set i x) c).getLast? = some (n + i, w) := by
  intro L
  induction L with
  | nil => intro i n hi; simp at hi
  | cons l rest ih =>
    intro i n hi hm hlast
    cases i with
    | zero =>
      have hml : matchLine l = some (c, v) := by simpa using hm
      rw [List.set_cons_zero, selMatchesFrom_cons_some hx]
      rw [selMatchesFrom_cons_some hml, if_pos rfl] at hlast
      rw [if_pos rfl]
      rcases hg : (selMatchesFrom (n + 1) rest c).getLast? with _ | e
      · rw [getLast?_append_none hg]
        simp
      · exfalso
        rw [getLast?_append_some hg] at hlast
        injection hlast with he
        have hmem : e ∈ selMatchesFrom (n + 1) rest c := List.mem_of_mem_getLast? hg
        have := (selMatchesFrom_entry hmem).1
        rw [he] at this
        simp at this
    | succ i2 =>
      rw [List.getD_cons_succ] at hm
      have hi2 : i2 < rest.length := by simpa using hi
      have hshift : n + (i2 + 1) = (n + 1) + i2 := by omega
      rw [List.set_cons_succ]
      rcases hml : matchLine l with _ | ⟨c2, v2⟩
      · rw [selMatchesFrom_cons_none hml] at hlast ⊢
        rw [hshift] at hlast ⊢
        exact ih (n + 1) hi2 hm hlast
      · rw [selMatchesFrom_cons_some hml] at hlast ⊢
        rcases hg : (selMatchesFrom (n + 1) rest c).getLast? with _ | e
        · exfalso
          rw [getLast?_append_none hg] at hlast
          by_cases hc2 : c2 = c
          · rw [if_pos hc2] at hlast
            simp at hlast
          · rw [if_neg hc2] at hlast
            simp at hlast
        · have hres : (selMatchesFrom (n + 1) (rest.set i2 x) c).getLast? =
              some ((n + 1) + i2, w) := by
            refine ih (n + 1) hi2 hm ?_
            rw [getLast?_append_some hg] at hlast
            rw [hg, hlast, hshift]
          rw [getLast?_append_some hres, hshift]

theorem lookup_parse_set_same {L : List Str} {i : Nat} {x c v w : Str}
    (hi : i < L.length) (hm : matchLine (L.getD i []) = some (c, v))
    (hx : matchLine x = some (c, w))
    (hlk : lookupC (parse_image_constants L) c = some (i, v)) :
    lookupC (parse_image_constants (L.set i x)) c = some (i, w) := by
  rw [parse_image_constants_last_wins] at hlk ⊢
  have h0 : (selMatchesFrom 0 L c).getLast? = some (0 + i, v) := by
    rw [hlk]
    simp
  have := selMatchesFrom_set_same hx 0 hi hm h0
  rw [this]
  simp

theorem lookup_parse_set_other {L : List Str} {i : Nat} {x c v w c' : Str}
    (hi : i < L.length) (hm : matchLine (L.getD i []) = some (c, v))
    (hx : matchLine x = some (c, w)) (hne : c' ≠ c) :
    lookupC (parse_image_constants (L.set i x)) c' =
      lookupC (parse_image_constants L) c' := by
  rw [parse_image_constants_last_wins, parse_image_constants_last_wins]
  rw [selMatchesFrom_set_other hx 0 hi hm hne]

theorem no_colon_chars {s1 cs s2 s3 : Str} {c0 : Char}
    (hsp1 : ∀ x ∈ s1, pySpace x = true) (hst : isIdentStart c0 = true)
    (hcs : ∀ x ∈ cs, isIdentChar x = true) (hsp2 : ∀ x ∈ s2, pySpace x = true)
    (hsp3 : ∀ x ∈ s3, pySpace x = true) :
    ∀ x ∈ s1 ++ c0 :: (cs ++ (s2 ++ '=' :: s3)), x ≠ ':' := by
  intro x hx
  rcases List.mem_append.mp hx with h | hx
  · exact space_ne_colon (hsp1 x h)
  rcases List.mem_cons.mp hx with rfl | hx
  · exact identStart_ne_colon hst
  rcases List.mem_append.mp hx with h | hx
  · exact identChar_ne_colon (hcs x h)
  rcases List.mem_append.mp hx with h | hx
  · exact space_ne_colon (hsp2 x h)
  rcases List.mem_cons.mp hx with rfl | hx
  · decide
  · exact space_ne_colon (hsp3 x hx)

theorem no_occ_before_value {A v Q : Str} (hA : ∀ x ∈ A, x ≠ ':') (hcolon : ':' ∈ v)
    (hq : ∀ x ∈ v, x ≠ '"') :
    ∀ j, j < (A ++ ['"']).length → ¬ occursAt v ((A ++ ['"']) ++ (v ++ Q)) j := by
  intro j hj hocc
  unfold occursAt at hocc
  rw [List.drop_append_of_le_length (le_of_lt hj)] at hocc
  by_cases hlen : v.length ≤ ((A ++ ['"']).drop j).length
  · have hvt : v = ((A ++ ['"']).drop j).take v.length := by
      conv_lhs => rw [← hocc]
      rw [List.take_append_of_le_length hlen]
    have hc1 : ':' ∈ ((A ++ ['"']).drop j).take v.length := by
      rw [← hvt]
      exact hcolon
    have hc2 : ':' ∈ (A ++ ['"']) := List.mem_of_mem_drop (List.mem_of_mem_take hc1)
    rcases List.mem_append.mp hc2 with h | h
    · exact hA ':' h rfl
    · simp at h
  · push_neg at hlen
    have hj2 : j ≤ A.length := by
      simp at hj
      omega
    have hqt : '"' ∈ (A ++ ['"']).drop j := by
      rw [List.drop_append_of_le_length hj2]
      simp
    have hvt : v = (A ++ ['"']).drop j ++
        (v ++ Q).take (v.length - ((A ++ ['"']).drop j).length) := by
      conv_lhs => rw [← hocc]
      rw [List.take_append_eq_append_take, List.take_of_length_le (le_of_lt hlen)]
    have hqv : '"' ∈ v := by
      rw [hvt]
      exact List.mem_append.mpr (Or.inl hqt)
    exact hq '"' hqv rfl

theorem replaceFirst_at_value {A v Q w : Str} (hA : ∀ x ∈ A, x ≠ ':')
    (hcolon : ':' ∈ v) (hnq : ∀ x ∈ v, x ≠ '"') :
    replaceFirst v w ((A ++ ['"']) ++ (v ++ Q)) = (A ++ ['"']) ++ (w ++ Q) := by
  have hocc : occursAt v ((A ++ ['"']) ++ (v ++ Q)) (A ++ ['"']).length :=
    occursAt_append _ _ _
  rw [replaceFirst_first_occ hocc (no_occ_before_value hA hcolon hnq)]
  have h1 : ((A ++ ['"']) ++ (v ++ Q)).take (A ++ ['"']).length = A ++ ['"'] :=
    List.take_left _ _
  have h2 : ((A ++ ['"']) ++ (v ++ Q)).drop ((A ++ ['"']).length + v.length) = Q := by
    rw [List.drop_append_eq_append_drop]
    rw [List.drop_of_length_le (Nat.le_add_right _ _)]
    rw [Nat.add_sub_cancel_left]
    rw [List.nil_append]
    exact List.drop_left v Q
  rw [h1, h2, List.append_assoc]

theorem extract_ok_elim {v cur : Str} (h : extract_image_tag v = Except.ok cur) :
    ':' ∈ v ∧ cur = afterLastColon v := by
  unfold extract_image_tag at h
  by_cases hc : ':' ∈ v
  · rw [if_pos hc] at h
    injection h with h2
    exact ⟨hc, h2.symm⟩
  · rw [if_neg hc] at h
    exact Except.noConfusion h

theorem extract_patched {pre tag : Str} (hnc : ':' ∉ tag) :
    extract_image_tag (pre ++ ':' :: tag) = Except.ok tag := by
  unfold extract_image_tag
  rw [if_pos (List.mem_append.mpr (Or.inr (List.mem_cons_self _ _)))]
  rw [afterLast_append hnc]

theorem fetch_latest_ok_shape {tagsOf : Str → Except Err (List Str)} {repo s : Str}
    (h : fetch_latest_semver_tag tagsOf repo = Except.ok s) :
    ∃ t, s = formatSemver t := by
  rcases ht : tagsOf repo with e | tags
  · unfold fetch_latest_semver_tag at h
    rw [ht] at h
    exact Except.noConfusion h
  · have hfu : fetch_latest_semver_tag tagsOf repo =
        (match tags.filterMap parse_semver with
         | [] => Except.error (Err.valueError repo)
         | v :: vs => Except.ok (formatSemver (listMax v vs))) := by
      unfold fetch_latest_semver_tag
      rw [ht]
    rcases hfm : tags.filterMap parse_semver with _ | ⟨v, vs⟩ <;> rw [hfm] at hfu <;>
      rw [hfu] at h
    · exact Except.noConfusion h
    · injection h with h2
      exact ⟨listMax v vs, h2.symm⟩

theorem mem_beforeLast {v : Str} {x : Char} (h : x ∈ beforeLastColon v) : x ∈ v := by
  unfold beforeLastColon at h
  have h1 := List.mem_reverse.mp h
  have h2 := List.mem_of_mem_drop h1
  have h3 := (List.dropWhile_sublist _).mem h2
  exact List.mem_reverse.mp h3

theorem keys_nodup_inj {mapping : List (Str × Str)}
    (hnd : (mapping.map Prod.fst).Nodup) :
    ∀ {p q : Str × Str}, p ∈ mapping → q ∈ mapping → p.1 = q.1 → p = q := by
  induction mapping with
  | nil => intro p q hp; simp at hp
  | cons a rest ih =>
    intro p q hp hq heq
    rw [List.map_cons, List.nodup_cons] at hnd
    obtain ⟨hna, hnr⟩ := hnd
    rcases List.mem_cons.mp hp with rfl | hp2 <;> rcases List.mem_cons.mp hq with rfl | hq2
    · rfl
    · exact absurd (by rw [heq]; exact List.mem_map_of_mem Prod.fst hq2) hna
    · exact absurd (by rw [← heq]; exact List.mem_map_of_mem Prod.fst hp2) hna
    · exact ih hnr hp2 hq2 heq

theorem recOf_some_elim {tagsOf : Str → Except Err (List Str)}
    {constants : List (Str × Nat × Str)} {p : Str × Str} {u : ImageUpdate}
    (h : recOf tagsOf constants p = some u) :
    ∃ i v cur latest, lookupC constants p.1 = some (i, v) ∧
      extract_image_tag v = Except.ok cur ∧
      fetch_latest_semver_tag tagsOf p.2 = Except.ok latest ∧
      (parse_semver latest).isSome = true ∧ cur ≠ latest ∧
      u = ImageUpdate.mk p.1 p.2 cur latest := by
  unfold recOf at h
  rcases hps : planStep tagsOf constants p with e | r
  · rw [hps] at h
    simp [excValD] at h
  · rw [hps] at h
    have hr : r = some u := h
    obtain ⟨i, v, cur, latest, hl, he, hf, hpsem, hr2⟩ := planStep_ok_elim hps
    rw [hr2] at hr
    by_cases hne : cur ≠ latest
    · rw [if_pos hne] at hr
      injection hr with h2
      exact ⟨i, v, cur, latest, hl, he, hf, hpsem, hne, h2.symm⟩
    · rw [if_neg hne] at hr
      exact Option.noConfusion hr

theorem recOf_names_sublist (tagsOf : Str → Except Err (List Str))
    (constants : List (Str × Nat × Str)) : ∀ mapping : List (Str × Str),
    ((mapping.filterMap (recOf tagsOf constants)).map
      (fun u => u.const_name)).Sublist (mapping.map Prod.fst) := by
  intro mapping
  induction mapping with
  | nil => simp
  | cons p rest ih =>
    rw [List.filterMap_cons, List.map_cons]
    rcases hr : recOf tagsOf constants p with _ | u
    · exact ih.cons _
    · rw [List.map_cons]
      have hc : u.const_name = p.1 := by
        obtain ⟨i, v, cur, latest, -, -, -, -, -, hu⟩ := recOf_some_elim hr
        rw [hu]
      rw [hc]
      exact ih.cons₂ _

theorem applyLoop_parse : ∀ (us : List ImageUpdate) (L : List Str)
    (m : List (Str × Nat × Str)),
    (∀ u ∈ us, ∃ i v, lookupC m u.const_name = some (i, v) ∧
      lookupC (parse_image_constants L) u.const_name = some (i, v) ∧ ':' ∈ v ∧
      u.to_tag ≠ [] ∧ (∀ x ∈ u.to_tag, x ≠ '"') ∧ ':' ∉ u.to_tag) →
    (us.map (fun u => u.const_name)).Nodup →
    ∃ out, applyLoop m L us = Except.ok out ∧
      (∀ c2, (∀ u ∈ us, u.const_name ≠ c2) →
        lookupC (parse_image_constants out) c2 =
          lookupC (parse_image_constants L) c2) ∧
      (∀ u ∈ us, ∀ i v, lookupC m u.const_name = some (i, v) →
        lookupC (parse_image_constants out) u.const_name =
          some (i, beforeLastColon v ++ ':' :: u.to_tag)) := by
  intro us
  induction us with
  | nil =>
    intro L m hres hnd
    exact ⟨L, rfl, fun c2 hc2 => rfl, fun u hu => absurd hu (List.not_mem_nil u)⟩
  | cons u rest ih =>
    intro L m hres hnd
    obtain ⟨i, v, hlm, hlp, hcolon, htne, htq, htc⟩ := hres u (List.mem_cons_self _ _)
    obtain ⟨hi, hm⟩ := lookupC_parse_sound hlp
    obtain ⟨s1, c0, cs, s2, s3, post, hident, hline, hsp1, hst, hcs, hsp2, hsp3, hvne, hvq⟩ :=
      matchLine_decomp hm
    rw [List.map_cons, List.nodup_cons] at hnd
    obtain ⟨hnotmem, hndrest⟩ := hnd
    set w := beforeLastColon v ++ ':' :: u.to_tag with hwdef
    have hw : replace_image_tag v u.to_tag = Except.ok w := by
      rw [hwdef]
      unfold replace_image_tag
      rw [if_pos hcolon]
    have hone : applyOne m L u =
        Except.ok (L.set i (replaceFirst v w (L.getD i []))) :=
      applyOne_ok_intro hlm hw hi
    have hassoc1 : s1 ++ c0 :: (cs ++ (s2 ++ '=' :: (s3 ++ '"' :: (v ++ '"' :: post)))) =
        ((s1 ++ c0 :: (cs ++ (s2 ++ '=' :: s3))) ++ ['"']) ++ (v ++ ('"' :: post)) := by
      simp
    have hrf : replaceFirst v w (L.getD i []) =
        s1 ++ c0 :: (cs ++ (s2 ++ '=' :: (s3 ++ '"' :: (w ++ '"' :: post)))) := by
      rw [hline, hassoc1,
        replaceFirst_at_value (no_colon_chars hsp1 hst hcs hsp2 hsp3) hcolon hvq]
      simp
    have hwne : w ≠ [] := by
      rw [hwdef]
      simp
    have hwq : ∀ x ∈ w, x ≠ '"' := by
      intro x hx
      rw [hwdef] at hx
      rcases List.mem_append.mp hx with h | h
      · exact hvq x (mem_beforeLast h)
      · rcases List.mem_cons.mp h with rfl | h
        · decide
        · exact htq x h
    have hmx : matchLine (replaceFirst v w (L.getD i [])) = some (u.const_name, w) := by
      rw [hrf, hident]
      exact matchLine_build hsp1 hst hcs hsp2 hsp3 hwne hwq
    have hres2 : ∀ u2 ∈ rest, ∃ i2 v2, lookupC m u2.const_name = some (i2, v2) ∧
        lookupC (parse_image_constants (L.set i (replaceFirst v w (L.getD i []))))
          u2.const_name = some (i2, v2) ∧ ':' ∈ v2 ∧
        u2.to_tag ≠ [] ∧ (∀ x ∈ u2.to_tag, x ≠ '"') ∧ ':' ∉ u2.to_tag := by
      intro u2 hu2
      obtain ⟨i2, v2, h1, h2, h3, h4, h5, h6⟩ := hres u2 (List.mem_cons_of_mem _ hu2)
      have hneq : u2.const_name ≠ u.const_name := by
        intro hc
        exact hnotmem (hc ▸ List.mem_map_of_mem (fun u3 => u3.const_name) hu2)
      refine ⟨i2, v2, h1, ?_, h3, h4, h5, h6⟩
      rw [lookup_parse_set_other hi hm hmx hneq]
      exact h2
    obtain ⟨out, happ, hother, hpatched⟩ :=
      ih (L.set i (replaceFirst v w (L.getD i []))) m hres2 hndrest
    refine ⟨out, ?_, ?_, ?_⟩
    · rw [applyLoop_cons_ok hone]
      exact happ
    · intro c2 hc2
      rw [hother c2 (fun u2 hu2 => hc2 u2 (List.mem_cons_of_mem _ hu2))]
      exact lookup_parse_set_other hi hm hmx
        (fun hc => (hc2 u (List.mem_cons_self _ _)) hc.symm)
    · intro u2 hu2 i2 v2 hl2
      rcases List.mem_cons.mp hu2 with rfl | hu3
      · rw [hlm] at hl2
        injection hl2 with hiv
        have hieq : i = i2 := congrArg Prod.fst hiv
        have hveq : v = v2 := congrArg Prod.snd hiv
        subst hieq
        subst hveq
        have hstep : lookupC
            (parse_image_constants (L.set i (replaceFirst v w (L.getD i []))))
            u2.const_name = some (i, w) :=
          lookup_parse_set_same hi hm hmx hlp
        rw [hother u2.const_name
          (fun u3 hu3 hc => hnotmem (hc ▸ List.mem_map_of_mem (fun u4 => u4.const_name) hu3))]
        rw [hstep]
      · exact hpatched u2 hu3 i2 v2 hl2

/-! ## C3: idempotence of plan + patch -/

theorem runOnce_err2 {tagsOf : Str → Except Err (List Str)} {content : List Str}
    {us : List ImageUpdate} {e : Err}
    (h1 : compute_updates tagsOf (parse_image_constants content) = Except.ok us)
    (h2 : apply_updates content (parse_image_constants content) us = Except.error e) :
    runOnce tagsOf content = Except.error e := by
  unfold runOnce
  rw [h1]
  show (match apply_updates content (parse_image_constants content) us with
    | Except.error e => Except.error e
    | Except.ok out =>
      Except.ok (RunResult.mk (if us.isEmpty then content else out) (!us.isEmpty) us)) =
    Except.error e
  rw [h2]

theorem runOnce_ok_eq {tagsOf : Str → Except Err (List Str)} {content : List Str}
    {us : List ImageUpdate} {out : List Str}
    (h1 : compute_updates tagsOf (parse_image_constants content) = Except.ok us)
    (h2 : apply_updates content (parse_image_constants content) us = Except.ok out) :
    runOnce tagsOf content =
      Except.ok (RunResult.mk (if us.isEmpty then content else out) (!us.isEmpty) us) := by
  unfold runOnce
  rw [h1]
  show (match apply_updates content (parse_image_constants content) us with
    | Except.error e => Except.error e
    | Except.ok out =>
      Except.ok (RunResult.mk (if us.isEmpty then content else out) (!us.isEmpty) us)) =
    Except.ok (RunResult.mk (if us.isEmpty then content else out) (!us.isEmpty) us)
  rw [h2]

/-- C3: a second run of the parse → plan → patch pipeline on the buffer a
successful run produced, with the registry unchanged, computes zero Update
Records, returns the buffer unchanged, and does not rewrite the file. -/
theorem run_idempotent (tagsOf : Str → Except Err (List Str)) (content : List Str)
    (r : RunResult) (h : runOnce tagsOf content = Except.ok r) :
    runOnce tagsOf r.fileContent =
      Except.ok (RunResult.mk r.fileContent false []) := by
  rcases hc : compute_updates tagsOf (parse_image_constants content) with e | us
  · rw [runOnce_err hc] at h
    exact Except.noConfusion h
  rcases ha : apply_updates content (parse_image_constants content) us with e | out
  · rw [runOnce_err2 hc ha] at h
    exact Except.noConfusion h
  rw [runOnce_ok_eq hc ha] at h
  injection h with h2
  subst h2
  by_cases hemp : us.isEmpty
  · have husnil : us = [] := List.isEmpty_iff.mp hemp
    subst husnil
    have hfc : (RunResult.mk (if ([] : List ImageUpdate).isEmpty then content else out)
        (!([] : List ImageUpdate).isEmpty) ([] : List ImageUpdate)).fileContent =
        content := rfl
    rw [hfc]
    have happ0 : apply_updates content (parse_image_constants content)
        ([] : List ImageUpdate) = Except.ok content := rfl
    have hres := runOnce_ok_eq hc happ0
    simpa using hres
  · have hempf : us.isEmpty = false := by
      cases hb : us.isEmpty
      · rfl
      · exact absurd hb hemp
    have hfc : (RunResult.mk (if us.isEmpty then content else out) (!us.isEmpty)
        us).fileContent = out := by
      simp [hempf]
    rw [hfc]
    have htk : (TARGET_CONST_TO_REPOSITORY.map Prod.fst).Nodup := by decide
    unfold compute_updates at hc
    rcases hpl : planLoop tagsOf (parse_image_constants content)
        TARGET_CONST_TO_REPOSITORY with e | us0
    · rw [compute_updates_over_err hpl] at hc
      exact Except.noConfusion hc
    rw [compute_updates_over_ok hpl] at hc
    injection hc with hc2
    obtain ⟨hall, hus0⟩ := planLoop_ok_iff.mp hpl
    have hperm : us.Perm us0 := by
      rw [← hc2]
      exact sortByName_perm us0
    have hnd0 : (us0.map (fun u => u.const_name)).Nodup := by
      rw [hus0]
      exact List.Nodup.sublist
        (recOf_names_sublist tagsOf (parse_image_constants content)
          TARGET_CONST_TO_REPOSITORY) htk
    have hnd : (us.map (fun u => u.const_name)).Nodup :=
      ((hperm.map (fun u => u.const_name)).nodup_iff).mpr hnd0
    have hres : ∀ u ∈ us, ∃ i v,
        lookupC (parse_image_constants content) u.const_name = some (i, v) ∧
        lookupC (parse_image_constants content) u.const_name = some (i, v) ∧ ':' ∈ v ∧
        u.to_tag ≠ [] ∧ (∀ x ∈ u.to_tag, x ≠ '"') ∧ ':' ∉ u.to_tag := by
      intro u hu
      have hu0 : u ∈ us0 := hperm.mem_iff.mp hu
      rw [hus0] at hu0
      rcases List.mem_filterMap.mp hu0 with ⟨p, hp, hrp⟩
      obtain ⟨i, v, cur, latest, hl, he, hf, hpsem, hne, hu2⟩ := recOf_some_elim hrp
      obtain ⟨hcv, -⟩ := extract_ok_elim he
      obtain ⟨t, hts⟩ := fetch_latest_ok_shape hf
      have hconst : u.const_name = p.1 := by rw [hu2]
      have htag : u.to_tag = latest := by rw [hu2]
      refine ⟨i, v, ?_, ?_, hcv, ?_, ?_, ?_⟩
      · rw [hconst]; exact hl
      · rw [hconst]; exact hl
      · rw [htag, hts]; exact formatSemver_ne_nil t
      · rw [htag, hts]
        exact fun x hx hcq => formatSemver_no_quote t (hcq ▸ hx)
      · rw [htag, hts]; exact formatSemver_no_colon t
    obtain ⟨out2, happ2, hother, hpatched⟩ :=
      applyLoop_parse us content (parse_image_constants content) hres hnd
    have h3 : apply_updates content (parse_image_constants content) us =
        Except.ok out2 := happ2
    rw [ha] at h3
    injection h3 with hout
    subst hout
    have hsteps2 : ∀ p ∈ TARGET_CONST_TO_REPOSITORY,
        planStep tagsOf (parse_image_constants out) p = Except.ok none := by
      intro p hp
      have hsc := hall p hp
      rcases hps : planStep tagsOf (parse_image_constants content) p with e | r0
      · unfold stepCheck at hsc
        rw [hps] at hsc
        exact absurd hsc (by simp [excOk])
      obtain ⟨i, v, cur, latest, hl, he, hf, hpsem, hr0⟩ := planStep_ok_elim hps
      obtain ⟨t, hts⟩ := fetch_latest_ok_shape hf
      by_cases hne : cur ≠ latest
      · have hru : recOf tagsOf (parse_image_constants content) p =
            some (ImageUpdate.mk p.1 p.2 cur latest) := by
          unfold recOf
          rw [hps, hr0, if_pos hne]
          rfl
        have humem : ImageUpdate.mk p.1 p.2 cur latest ∈ us := by
          refine hperm.mem_iff.mpr ?_
          rw [hus0]
          exact List.mem_filterMap.mpr ⟨p, hp, hru⟩
        have hnewlookup : lookupC (parse_image_constants out) p.1 =
            some (i, beforeLastColon v ++ ':' :: latest) :=
          hpatched _ humem i v hl
        have hex : extract_image_tag (beforeLastColon v ++ ':' :: latest) =
            Except.ok latest := by
          refine extract_patched ?_
          rw [hts]
          exact formatSemver_no_colon t
        have hres2 := planStep_ok_intro (p := p) hnewlookup hex hf hpsem
        rw [if_neg (fun hcc => hcc rfl)] at hres2
        exact hres2
      · push_neg at hne
        have hnopatch : ∀ u ∈ us, u.const_name ≠ p.1 := by
          intro u hu hcq
          have hu0 : u ∈ us0 := hperm.mem_iff.mp hu
          rw [hus0] at hu0
          rcases List.mem_filterMap.mp hu0 with ⟨q, hq, hrq⟩
          obtain ⟨i2, v2, cur2, latest2, hl2, he2, hf2, hpsem2, hne2, hu2⟩ :=
            recOf_some_elim hrq
          have hq1 : u.const_name = q.1 := by rw [hu2]
          have hqp : q = p := keys_nodup_inj htk hq hp (by rw [← hq1, hcq])
          subst hqp
          rw [hl] at hl2
          injection hl2 with hiv
          have hv2 : v2 = v := (congrArg Prod.snd hiv).symm
          rw [hv2, he] at he2
          injection he2 with hcur
          rw [hf] at hf2
          injection hf2 with hlat
          rw [← hcur, ← hlat] at hne2
          exact hne2 hne
        have hunch : lookupC (parse_image_constants out) p.1 = some (i, v) := by
          rw [hother p.1 hnopatch]
          exact hl
        have hres2 := planStep_ok_intro (p := p) hunch he hf hpsem
        rw [if_neg (fun hcc => hcc hne)] at hres2
        exact hres2
    have hpl2 : planLoop tagsOf (parse_image_constants out)
        TARGET_CONST_TO_REPOSITORY = Except.ok [] := by
      refine planLoop_ok_iff.mpr ⟨?_, ?_⟩
      · intro p hp
        unfold stepCheck
        rw [hsteps2 p hp]
        rfl
      · symm
        refine List.filterMap_eq_nil_iff.mpr ?_
        intro p hp
        unfold recOf
        rw [hsteps2 p hp]
        rfl
    have hcompute2 : compute_updates tagsOf (parse_image_constants out) =
        Except.ok [] := by
      unfold compute_updates
      rw [compute_updates_over_ok hpl2]
      rfl
    have happly2 : apply_updates out (parse_image_constants out)
        ([] : List ImageUpdate) = Except.ok out := rfl
    have hres3 := runOnce_ok_eq hcompute2 happly2
    simpa using hres3

/-- C3, witness: a twelve-constant file where only `C` is stale; the first
run patches it and a second run is a byte-identical no-op without a write. -/
theorem run_idempotent_witness :
    runOnce (fun _ => Except.ok ["v2.0.0".data])
      ["C = \"horuszup/horusec-c:v1.0.0\"\n".data,
       "Csharp = \"horuszup/horusec-csharp:v2.0.0\"\n".data,
       "Elixir = \"horuszup/horusec-elixir:v2.0.0\"\n".data,
       "Generic = \"horuszup/horusec-generic:v2.0.0\"\n".data,
       "Go = \"horuszup/horusec-go:v2.0.0\"\n".data,
       "HCL = \"horuszup/horusec-hcl:v2.0.0\"\n".data,
       "Javascript = \"horuszup/horusec-js:v2.0.0\"\n".data,
       "Leaks = \"horuszup/horusec-leaks:v2.0.0\"\n".data,
       "PHP = \"horuszup/horusec-php:v2.0.0\"\n".data,
       "Python = \"horuszup/horusec-python:v2.0.0\"\n".data,
       "Ruby = \"horuszup/horusec-ruby:v2.0.0\"\n".data,
       "Shell = \"horuszup/horusec-shell:v2.0.0\"\n".data] =
      Except.ok (RunResult.mk
        ["C = \"horuszup/horusec-c:v2.0.0\"\n".data,
         "Csharp = \"horuszup/horusec-csharp:v2.0.0\"\n".data,
         "Elixir = \"horuszup/horusec-elixir:v2.0.0\"\n".data,
         "Generic = \"horuszup/horusec-generic:v2.0.0\"\n".data,
         "Go = \"horuszup/horusec-go:v2.0.0\"\n".data,
         "HCL = \"horuszup/horusec-hcl:v2.0.0\"\n".data,
         "Javascript = \"horuszup/horusec-js:v2.0.0\"\n".data,
         "Leaks = \"horuszup/horusec-leaks:v2.0.0\"\n".data,
         "PHP = \"horuszup/horusec-php:v2.0.0\"\n".data,
         "Python = \"horuszup/horusec-python:v2.0.0\"\n".data,
         "Ruby = \"horuszup/horusec-ruby:v2.0.0\"\n".data,
         "Shell = \"horuszup/horusec-shell:v2.0.0\"\n".data]
        true
        [ImageUpdate.mk "C".data "horusec-c".data "v1.0.0".data "v2.0.0".data]) ∧
    runOnce (fun _ => Except.ok ["v2.0.0".data])
      (RunResult.mk
        ["C = \"horuszup/horusec-c:v2.0.0\"\n".data,
         "Csharp = \"horuszup/horusec-csharp:v2.0.0\"\n".data,
         "Elixir = \"horuszup/horusec-elixir:v2.0.0\"\n".data,
         "Generic = \"horuszup/horusec-generic:v2.0.0\"\n".data,
         "Go = \"horuszup/horusec-go:v2.0.0\"\n".data,
         "HCL = \"horuszup/horusec-hcl:v2.0.0\"\n".data,
         "Javascript = \"horuszup/horusec-js:v2.0.0\"\n".data,
         "Leaks = \"horuszup/horusec-leaks:v2.0.0\"\n".data,
         "PHP = \"horuszup/horusec-php:v2.0.0\"\n".data,
         "Python = \"horuszup/horusec-python:v2.0.0\"\n".data,
         "Ruby = \"horuszup/horusec-ruby:v2.0.0\"\n".data,
         "Shell = \"horuszup/horusec-shell:v2.0.0\"\n".data]
        true
        [ImageUpdate.mk "C".data "horusec-c".data "v1.0.0".data "v2.0.0".data]).fileContent =
      Except.ok (RunResult.mk
        (RunResult.mk
          ["C = \"horuszup/horusec-c:v2.0.0\"\n".data,
           "Csharp = \"horuszup/horusec-csharp:v2.0.0\"\n".data,
           "Elixir = \"horuszup/horusec-elixir:v2.0.0\"\n".data,
           "Generic = \"horuszup/horusec-generic:v2.0.0\"\n".data,
           "Go = \"horuszup/horusec-go:v2.0.0\"\n".data,
           "HCL = \"horuszup/horusec-hcl:v2.0.0\"\n".data,
           "Javascript = \"horuszup/horusec-js:v2.0.0\"\n".data,
           "Leaks = \"horuszup/horusec-leaks:v2.0.0\"\n".data,
           "PHP = \"horuszup/horusec-php:v2.0.0\"\n".data,
           "Python = \"horuszup/horusec-python:v2.0.0\"\n".data,
           "Ruby = \"horuszup/horusec-ruby:v2.0.0\"\n".data,
           "Shell = \"horuszup/horusec-shell:v2.0.0\"\n".data]
          true
          [ImageUpdate.mk "C".data "horusec-c".data "v1.0.0".data "v2.0.0".data]).fileContent
        false []) := by
  constructor
  · rfl
  · exact run_idempotent _
      ["C = \"horuszup/horusec-c:v1.0.0\"\n".data,
       "Csharp = \"horuszup/horusec-csharp:v2.0.0\"\n".data,
       "Elixir = \"horuszup/horusec-elixir:v2.0.0\"\n".data,
       "Generic = \"horuszup/horusec-generic:v2.0.0\"\n".data,
       "Go = \"horuszup/horusec-go:v2.0.0\"\n".data,
       "HCL = \"horuszup/horusec-hcl:v2.0.0\"\n".data,
       "Javascript = \"horuszup/horusec-js:v2.0.0\"\n".data,
       "Leaks = \"horuszup/horusec-leaks:v2.0.0\"\n".data,
       "PHP = \"horuszup/horusec-php:v2.0.0\"\n".data,
       "Python = \"horuszup/horusec-python:v2.0.0\"\n".data,
       "Ruby = \"horuszup/horusec-ruby:v2.0.0\"\n".data,
       "Shell = \"horuszup/horusec-shell:v2.0.0\"\n".data]
      _ (by rfl)
